import Mathlib

set_option maxHeartbeats 1000000
set_option maxRecDepth 4000

/-!
Shallow embedding of the mkit CBOR codec (src/cbor.rs): the value model, the
byte-level encoder/decoder engine, the key ordering, and the native-type
conversion layer, together with theorems checking the specification's claims.

Modelling conventions:
 - machine integers are `Nat` (unsigned) or `Int` (signed) with explicit range
   conditions where overflow matters;
 - `f32`/`f64` values are represented by their IEEE bit patterns (as `Nat`),
   which is exact for this codec: floats are only transported as big-endian
   bit patterns and compared with `total_cmp`, a pure function of the bits;
 - Rust panics (arithmetic overflow in debug builds, out-of-bounds indexing)
   are modelled as the distinguished outcome `Err.panicked`, separate from the
   library's typed error kinds;
 - the writer is a pure byte accumulator and the reader a byte list, so
   `do_encode` returns the written bytes together with the count the code
   reports, and `do_decode` returns the value, the reported count, and the
   remaining input.
-/

/-- Error outcomes of the Rust `Result`: the library's typed error kinds used
by cbor.rs, plus `panicked` for Rust panics (overflow, index out of bounds,
`unreachable!`). -/
inductive Err where
  | IOError
  | FailCbor
  | FailConvert
  | Fatal
  | panicked
deriving DecidableEq

/-- `RECURSION_LIMIT`: recursion limit for nested Cbor objects. -/
def RECURSION_LIMIT : Nat := 1000

/-- 5-bit additional-information field of a CBOR header (`enum Info`). -/
inductive Info where
  | Tiny (n : Nat)
  | U8
  | U16
  | U32
  | U64
  | Reserved28
  | Reserved29
  | Reserved30
  | Indefinite
deriving DecidableEq

/-- `impl From<u64> for Info`: pick the width class for a magnitude. -/
def infoOf (num : Nat) : Info :=
  if num ≤ 23 then .Tiny num
  else if num ≤ 255 then .U8
  else if num ≤ 65535 then .U16
  else if num ≤ 4294967295 then .U32
  else .U64

/-- `impl TryFrom<u8> for Info`: decode the 5-bit info code. -/
def infoTryFrom (b : Nat) : Except Err Info :=
  if b ≤ 23 then .ok (.Tiny b)
  else
    match b with
    | 24 => .ok .U8
    | 25 => .ok .U16
    | 26 => .ok .U32
    | 27 => .ok .U64
    | 28 => .ok .Reserved28
    | 29 => .ok .Reserved29
    | 30 => .ok .Reserved30
    | 31 => .ok .Indefinite
    | _ => .error .Fatal

/-- Big-endian bytes of `n`, exactly `w` bytes (`to_be_bytes` truncated to the
written slice). -/
def beBytes : Nat → Nat → List Nat
  | 0, _ => []
  | w + 1, n => beBytes w (n / 256) ++ [n % 256]

/-- `from_be_bytes`: recombine big-endian bytes into a magnitude. -/
def beToNat (l : List Nat) : Nat :=
  l.foldl (fun a b => a * 256 + b) 0

/-- `encode_hdr`: pack one header byte `(major << 5) | info`. Returns the
written bytes and the count (1) reported by the code. -/
def encode_hdr (major : Nat) (info : Info) : Except Err (List Nat × Nat) :=
  match info with
  | .Tiny v => if v ≤ 23 then .ok ([(major <<< 5) ||| v], 1) else .error .FailCbor
  | .U8 => .ok ([(major <<< 5) ||| 24], 1)
  | .U16 => .ok ([(major <<< 5) ||| 25], 1)
  | .U32 => .ok ([(major <<< 5) ||| 26], 1)
  | .U64 => .ok ([(major <<< 5) ||| 27], 1)
  | .Reserved28 => .ok ([(major <<< 5) ||| 28], 1)
  | .Reserved29 => .ok ([(major <<< 5) ||| 29], 1)
  | .Reserved30 => .ok ([(major <<< 5) ||| 30], 1)
  | .Indefinite => .ok ([(major <<< 5) ||| 31], 1)

/-- `encode_addnl`: the additional-value bytes for a magnitude, and the count
of bytes written. -/
def encode_addnl (num : Nat) : List Nat × Nat :=
  if num ≤ 23 then ([], 0)
  else if num ≤ 255 then (beBytes 1 num, 1)
  else if num ≤ 65535 then (beBytes 2 num, 2)
  else if num ≤ 4294967295 then (beBytes 4 num, 4)
  else (beBytes 8 num, 8)

/-- `decode_hdr`: read one byte, split it into major (high 3 bits) and info
(low 5 bits). Returns major, info, the count (1), and the remaining input
(with the consumption bound used for termination of the decoder). -/
def decode_hdr (s : List Nat) :
    Except Err (Nat × Info × Nat × {r : List Nat // r.length < s.length}) :=
  match s with
  | [] => .error .IOError
  | b :: rest =>
    match infoTryFrom (b &&& 0x1f) with
    | .error e => .error e
    | .ok info => .ok ((b &&& 0xe0) >>> 5, info, 1, ⟨rest, by simp⟩)

/-- `read_exact`: take `k` bytes off the input, or fail with an I/O error. -/
def readExact (k : Nat) (s : List Nat) :
    Except Err (List Nat × {r : List Nat // r.length ≤ s.length}) :=
  if k ≤ s.length then
    .ok (s.take k, ⟨s.drop k, by rw [List.length_drop]; omega⟩)
  else .error .IOError

/-- `decode_addnl`: read the additional value selected by `info`. -/
def decode_addnl (info : Info) (s : List Nat) :
    Except Err (Nat × Nat × {r : List Nat // r.length ≤ s.length}) :=
  match info with
  | .Tiny num => .ok (num, 0, ⟨s, le_refl _⟩)
  | .U8 =>
    match readExact 1 s with
    | .error e => .error e
    | .ok (bs, r) => .ok (beToNat bs, 1, r)
  | .U16 =>
    match readExact 2 s with
    | .error e => .error e
    | .ok (bs, r) => .ok (beToNat bs, 2, r)
  | .U32 =>
    match readExact 4 s with
    | .error e => .error e
    | .ok (bs, r) => .ok (beToNat bs, 4, r)
  | .U64 =>
    match readExact 8 s with
    | .error e => .error e
    | .ok (bs, r) => .ok (beToNat bs, 8, r)
  | .Indefinite => .ok (0, 0, ⟨s, le_refl _⟩)
  | _ => .error .FailCbor

/-- Major type 7 simple values (`enum SimpleValue`); floats carried as IEEE
bit patterns. -/
inductive SimpleValue where
  | Unassigned
  | True
  | False
  | Null
  | Undefined
  | Reserved24 (b : Nat)
  | F16 (bits : Nat)
  | F32 (bits : Nat)
  | F64 (bits : Nat)
  | Break
deriving DecidableEq

/-- `SimpleValue::encode`: payload bytes following a major-7 header. -/
def SimpleValue.encode : SimpleValue → List Nat × Nat
  | .True | .False | .Null | .Undefined | .Break | .Unassigned => ([], 0)
  | .Reserved24 num => ([num], 1)
  | .F16 f => (beBytes 2 f, 2)
  | .F32 f => (beBytes 4 f, 4)
  | .F64 f => (beBytes 8 f, 8)

/-- `SimpleValue::decode`: dispatch on the major-7 info code. -/
def SimpleValue.decode (info : Info) (s : List Nat) :
    Except Err (SimpleValue × Nat × {r : List Nat // r.length ≤ s.length}) :=
  match info with
  | .Tiny 20 => .ok (.True, 0, ⟨s, le_refl _⟩)
  | .Tiny 21 => .ok (.False, 0, ⟨s, le_refl _⟩)
  | .Tiny 22 => .ok (.Null, 0, ⟨s, le_refl _⟩)
  | .Tiny 23 => .error .FailCbor
  | .Tiny _ => .error .FailCbor
  | .U8 => .error .FailCbor
  | .U16 => .error .FailCbor
  | .U32 =>
    match readExact 4 s with
    | .error e => .error e
    | .ok (bs, r) => .ok (.F32 (beToNat bs), 4, r)
  | .U64 =>
    match readExact 8 s with
    | .error e => .error e
    | .ok (bs, r) => .ok (.F64 (beToNat bs), 8, r)
  | .Reserved28 => .error .FailCbor
  | .Reserved29 => .error .FailCbor
  | .Reserved30 => .error .FailCbor
  | .Indefinite => .ok (.Break, 0, ⟨s, le_refl _⟩)

/-- Rust `Ord` on `u64`/`usize` (and list lengths): three-way compare. -/
def cmpNat (a b : Nat) : Ordering :=
  if a < b then .lt else if a = b then .eq else .gt

/-- Rust `Ord` on `i64`: three-way compare on `Int`. -/
def cmpInt (a b : Int) : Ordering :=
  if a < b then .lt else if a = b then .eq else .gt

/-- Rust `Ord` on `bool`: `false < true`. -/
def cmpBool : Bool → Bool → Ordering
  | false, true => .lt
  | true, false => .gt
  | _, _ => .eq

/-- Rust `Ord` on `Vec<u8>`/`str`: lexicographic byte compare. -/
def cmpList : List Nat → List Nat → Ordering
  | [], [] => .eq
  | [], _ :: _ => .lt
  | _ :: _, [] => .gt
  | a :: as_, b :: bs =>
    match cmpNat a b with
    | .eq => cmpList as_ bs
    | o => o

/-- Two's-complement reading of a 32-bit pattern (`as i32`). -/
def toI32 (x : Nat) : Int :=
  if x < 2 ^ 31 then (x : Int) else (x : Int) - 2 ^ 32

/-- Two's-complement reading of a 64-bit pattern (`as i64`). -/
def toI64 (x : Nat) : Int :=
  if x < 2 ^ 63 then (x : Int) else (x : Int) - 2 ^ 64

/-- The signed key `f32::total_cmp` compares: flip the low 31 bits when the
sign bit is set, then read as `i32`. -/
def f32key (bits : Nat) : Int :=
  toI32 (bits ^^^ (if 2 ^ 31 ≤ bits then 2 ^ 31 - 1 else 0))

/-- The signed key `f64::total_cmp` compares: flip the low 63 bits when the
sign bit is set, then read as `i64`. -/
def f64key (bits : Nat) : Int :=
  toI64 (bits ^^^ (if 2 ^ 63 ≤ bits then 2 ^ 63 - 1 else 0))

/-- `f32::total_cmp` on bit patterns. -/
def totalCmp32 (a b : Nat) : Ordering := cmpInt (f32key a) (f32key b)

/-- `f64::total_cmp` on bit patterns. -/
def totalCmp64 (a b : Nat) : Ordering := cmpInt (f64key a) (f64key b)

/-- Models Rust `std::str::from_utf8` validity on a byte sequence (the check
`Key::from_cbor` and `String::from_cbor` perform on major-3 payloads). -/
def utf8Valid : List Nat → Bool
  | [] => true
  | b :: rest =>
    if b < 0x80 then utf8Valid rest
    else if 0xC2 ≤ b ∧ b ≤ 0xDF then
      match rest with
      | c1 :: r1 => decide (0x80 ≤ c1 ∧ c1 ≤ 0xBF) && utf8Valid r1
      | _ => false
    else if 0xE0 ≤ b ∧ b ≤ 0xEF then
      match rest with
      | c1 :: c2 :: r2 =>
        let lo1 := if b = 0xE0 then 0xA0 else 0x80
        let hi1 := if b = 0xED then 0x9F else 0xBF
        decide (lo1 ≤ c1 ∧ c1 ≤ hi1) && decide (0x80 ≤ c2 ∧ c2 ≤ 0xBF) &&
          utf8Valid r2
      | _ => false
    else if 0xF0 ≤ b ∧ b ≤ 0xF4 then
      match rest with
      | c1 :: c2 :: c3 :: r3 =>
        let lo1 := if b = 0xF0 then 0x90 else 0x80
        let hi1 := if b = 0xF4 then 0x8F else 0xBF
        decide (lo1 ≤ c1 ∧ c1 ≤ hi1) && decide (0x80 ≤ c2 ∧ c2 ≤ 0xBF) &&
          decide (0x80 ≤ c3 ∧ c3 ≤ 0xBF) && utf8Valid r3
      | _ => false
    else false

/-- Map-key type (`enum Key`); floats as bit patterns, text as the UTF-8
bytes of the Rust `String`. -/
inductive Key where
  | Bool (b : Bool)
  | N64 (i : Int)
  | U64 (u : Nat)
  | F32 (bits : Nat)
  | F64 (bits : Nat)
  | Bytes (bs : List Nat)
  | Text (s : List Nat)
deriving DecidableEq

/-- `Key::to_type_order`: fixed per-variant rank. -/
def Key.to_type_order : Key → Nat
  | .Bool _ => 4
  | .N64 _ => 8
  | .U64 _ => 8
  | .F32 _ => 12
  | .F64 _ => 16
  | .Bytes _ => 20
  | .Text _ => 24

/-- `impl PartialEq for Key` (floats by `total_cmp == Equal`). -/
def keyBeq : Key → Key → Bool
  | .Bool a, .Bool b => a == b
  | .N64 a, .N64 b => a == b
  | .U64 a, .U64 b => a == b
  | .F32 a, .F32 b => totalCmp32 a b == .eq
  | .F64 a, .F64 b => totalCmp64 a b == .eq
  | .Bytes a, .Bytes b => a == b
  | .Text a, .Text b => a == b
  | _, _ => false

/-- `impl Ord for Key`: rank first, then value within the rank; the
`unreachable!()` arm of the source (same rank, incompatible variants) cannot
be hit and is mapped to `.eq`. -/
def keyCmp (a b : Key) : Ordering :=
  if a.to_type_order = b.to_type_order then
    match a, b with
    | .Bool x, .Bool y => cmpBool x y
    | .N64 x, .N64 y => cmpInt x y
    | .U64 x, .U64 y => cmpNat x y
    | .N64 _, .U64 _ => .lt
    | .U64 _, .N64 _ => .gt
    | .Bytes x, .Bytes y => cmpList x y
    | .Text x, .Text y => cmpList x y
    | .F32 x, .F32 y => totalCmp32 x y
    | .F64 x, .F64 y => totalCmp64 x y
    | _, _ => .eq
  else cmpNat a.to_type_order b.to_type_order

mutual

/-- Major type 6 tag values (`enum Tag`). -/
inductive Tag where
  | Identifier (v : Cbor)
  | Value (n : Nat)

/-- The Cbor value model (`enum Cbor`): the eight major variants plus the
opaque `Binary` variant for lazy decoding. -/
inductive Cbor where
  | Major0 (info : Info) (n : Nat)
  | Major1 (info : Info) (n : Nat)
  | Major2 (info : Info) (bs : List Nat)
  | Major3 (info : Info) (bs : List Nat)
  | Major4 (info : Info) (l : List Cbor)
  | Major5 (info : Info) (m : List (Key × Cbor))
  | Major6 (info : Info) (t : Tag)
  | Major7 (info : Info) (s : SimpleValue)
  | Binary (bs : List Nat)

end

mutual

/-- Node count of a Cbor tree (termination measure for the encoder). -/
def cborSize : Cbor → Nat
  | .Major0 _ _ => 1
  | .Major1 _ _ => 1
  | .Major2 _ _ => 1
  | .Major3 _ _ => 1
  | .Major4 _ l => 1 + cborListSize l
  | .Major5 _ m => 1 + cborPairsSize m
  | .Major6 _ t => 1 + tagSize t
  | .Major7 _ _ => 1
  | .Binary _ => 1

/-- Size of a list of Cbor values. -/
def cborListSize : List Cbor → Nat
  | [] => 0
  | c :: cs => cborSize c + 1 + cborListSize cs

/-- Size of a list of map pairs (each key counts 2, bounding its image). -/
def cborPairsSize : List (Key × Cbor) → Nat
  | [] => 0
  | (_, v) :: ps => 2 + cborSize v + cborPairsSize ps

/-- Size of a tag payload. -/
def tagSize : Tag → Nat
  | .Identifier v => 1 + cborSize v
  | .Value _ => 0

end

/-- `Tag::to_tag_value`. -/
def Tag.to_tag_value : Tag → Nat
  | .Identifier _ => 39
  | .Value v => v

/-- `impl From<Tag> for Cbor`. -/
def Tag.toCbor (t : Tag) : Cbor :=
  .Major6 (infoOf t.to_tag_value) t

/-- `impl IntoCbor for SimpleValue`. -/
def SimpleValue.into_cbor : SimpleValue → Except Err Cbor
  | .Unassigned => .error .FailConvert
  | .True => .ok (.Major7 (.Tiny 20) .True)
  | .False => .ok (.Major7 (.Tiny 21) .False)
  | .Null => .ok (.Major7 (.Tiny 22) .Null)
  | .Undefined => .error .FailConvert
  | .Reserved24 _ => .error .FailConvert
  | .F16 _ => .error .FailConvert
  | .F32 f => .ok (.Major7 .U32 (.F32 f))
  | .F64 f => .ok (.Major7 .U64 (.F64 f))
  | .Break => .ok (.Major7 .Indefinite .Break)

/-- Minimum value of `i64`. -/
def i64MIN : Int := -(2 ^ 63)

/-- Maximum value of `i64`. -/
def i64MAX : Int := 2 ^ 63 - 1

/-- Rust `i64::abs` in a debug build: panics on `i64::MIN`. -/
def i64abs (v : Int) : Except Err Int :=
  if v = i64MIN then .error .panicked else .ok |v|

/-- `u64::try_from` an `i64` value: fails on negatives. -/
def u64TryFromInt (v : Int) : Except Err Nat :=
  if 0 ≤ v then .ok v.toNat else .error .FailConvert

/-- `impl IntoCbor for Key`. -/
def Key.into_cbor : Key → Except Err Cbor
  | .U64 key => .ok (.Major0 (infoOf key) key)
  | .N64 key =>
    if 0 ≤ key then .error .FailConvert
    else
      match i64abs key with
      | .error e => .error e
      | .ok a =>
        match u64TryFromInt (a - 1) with
        | .error e => .error e
        | .ok val => .ok (.Major1 (infoOf val) val)
  | .Bytes key =>
    if key.length < 2 ^ 64 then .ok (.Major2 (infoOf key.length) key)
    else .error .FailConvert
  | .Text key =>
    if key.length < 2 ^ 64 then .ok (.Major3 (infoOf key.length) key)
    else .error .FailConvert
  | .Bool true => SimpleValue.True.into_cbor
  | .Bool false => SimpleValue.False.into_cbor
  | .F32 key => (SimpleValue.F32 key).into_cbor
  | .F64 key => (SimpleValue.F64 key).into_cbor

/-- `impl FromCbor for Key`. The `key + 1` addition is a `u64` add: on
magnitude `u64::MAX` it overflows, which is a panic in a debug build. -/
def Key.from_cbor : Cbor → Except Err Key
  | .Major0 _ key => .ok (.U64 key)
  | .Major1 _ key =>
    if 2 ^ 64 ≤ key + 1 then .error .panicked
    else if (key : Int) + 1 ≤ i64MAX then .ok (.N64 (-((key : Int) + 1)))
    else .error .FailConvert
  | .Major2 _ key => .ok (.Bytes key)
  | .Major3 _ key =>
    if utf8Valid key then .ok (.Text key) else .error .FailConvert
  | .Major7 _ .True => .ok (.Bool true)
  | .Major7 _ .False => .ok (.Bool false)
  | .Major7 _ (.F32 key) => .ok (.F32 key)
  | .Major7 _ (.F64 key) => .ok (.F64 key)
  | _ => .error .FailCbor

/-- `impl IntoCbor for u64` (macro `convert_pos_num`). -/
def intoCbor_u64 (v : Nat) : Except Err Cbor :=
  .ok (.Major0 (infoOf v) v)

/-- `impl FromCbor for u64` (macro `convert_pos_num`): only major 0. -/
def fromCbor_u64 (c : Cbor) : Except Err Nat :=
  match c with
  | .Major0 _ val => if val < 2 ^ 64 then .ok val else .error .FailConvert
  | _ => .error .FailConvert

/-- `impl IntoCbor for i64` (macro `convert_neg_num`): non-negatives go
through `u64::try_from` to major 0; negatives take `val.abs() - 1` (`abs`
panics on `i64::MIN` in a debug build) to major 1. -/
def intoCbor_i64 (val : Int) : Except Err Cbor :=
  if 0 ≤ val then
    match u64TryFromInt val with
    | .error e => .error e
    | .ok v => intoCbor_u64 v
  else
    match i64abs val with
    | .error e => .error e
    | .ok a =>
      match u64TryFromInt (a - 1) with
      | .error e => .error e
      | .ok v => .ok (.Major1 (infoOf v) v)

/-- `impl FromCbor for i64` (macro `convert_neg_num`): major 0 within range,
or major 1 via `-(val + 1)` where `val + 1` is a `u64` add (overflow on
`u64::MAX` panics in a debug build). -/
def fromCbor_i64 (c : Cbor) : Except Err Int :=
  match c with
  | .Major0 _ val => if (val : Int) ≤ i64MAX then .ok (val : Int) else .error .FailConvert
  | .Major1 _ val =>
    if 2 ^ 64 ≤ val + 1 then .error .panicked
    else if (val : Int) + 1 ≤ i64MAX then .ok (-((val : Int) + 1))
    else .error .FailConvert
  | _ => .error .FailConvert

/-- `impl IntoCbor for &str` / `String`: text as major 3 with the UTF-8
bytes. -/
def intoCbor_str (s : List Nat) : Except Err Cbor :=
  if s.length < 2 ^ 64 then .ok (.Major3 (infoOf s.length) s)
  else .error .FailConvert

/-- `Cbor::to_major_val`: the major number; on the opaque `Binary` variant it
reads `data[0]` unconditionally, which panics if the buffer is empty. -/
def to_major_val : Cbor → Except Err Nat
  | .Major0 _ _ => .ok 0
  | .Major1 _ _ => .ok 1
  | .Major2 _ _ => .ok 2
  | .Major3 _ _ => .ok 3
  | .Major4 _ _ => .ok 4
  | .Major5 _ _ => .ok 5
  | .Major6 _ _ => .ok 6
  | .Major7 _ _ => .ok 7
  | .Binary [] => .error .panicked
  | .Binary (b :: _) => .ok ((b &&& 0xe0) >>> 5)

/-- Any Cbor value produced by `Key::into_cbor` is a leaf (size 1). -/
theorem keyImage_size {k : Key} {kc : Cbor} (h : Key.into_cbor k = .ok kc) :
    cborSize kc = 1 := by
  cases k with
  | Bool b =>
    cases b <;>
      (simp only [Key.into_cbor, SimpleValue.into_cbor] at h;
        simp at h; subst h; simp [cborSize])
  | N64 i =>
    simp only [Key.into_cbor, i64abs, u64TryFromInt] at h
    split at h
    · simp at h
    · split at h
      · simp at h
      · split at h
        · simp at h
        · simp at h; subst h; simp [cborSize]
  | U64 u => simp only [Key.into_cbor] at h; simp at h; subst h; simp [cborSize]
  | F32 b =>
    simp only [Key.into_cbor, SimpleValue.into_cbor] at h
    simp at h; subst h; simp [cborSize]
  | F64 b =>
    simp only [Key.into_cbor, SimpleValue.into_cbor] at h
    simp at h; subst h; simp [cborSize]
  | Bytes bs =>
    simp only [Key.into_cbor] at h
    split at h
    · simp at h; subst h; simp [cborSize]
    · simp at h
  | Text s =>
    simp only [Key.into_cbor] at h
    split at h
    · simp at h; subst h; simp [cborSize]
    · simp at h

mutual

/-- `Cbor::do_encode`: recursion-limited serializer. Returns the bytes
written and the count the code reports. -/
def do_encode (c : Cbor) (depth : Nat) : Except Err (List Nat × Nat) :=
  if RECURSION_LIMIT < depth then .error .FailCbor
  else
    match to_major_val c with
    | .error e => .error e
    | .ok major =>
      match c with
      | .Major0 info num =>
        match encode_hdr major info with
        | .error e => .error e
        | .ok (hb, n) =>
          let am := encode_addnl num
          .ok (hb ++ am.1, n + am.2)
      | .Major1 info num =>
        match encode_hdr major info with
        | .error e => .error e
        | .ok (hb, n) =>
          let am := encode_addnl num
          .ok (hb ++ am.1, n + am.2)
      | .Major2 info byts =>
        match encode_hdr major info with
        | .error e => .error e
        | .ok (hb, n) =>
          if byts.length < 2 ^ 64 then
            let am := encode_addnl byts.length
            .ok (hb ++ am.1 ++ byts, n + am.2 + byts.length)
          else .error .FailConvert
      | .Major3 info text =>
        match encode_hdr major info with
        | .error e => .error e
        | .ok (hb, n) =>
          if text.length < 2 ^ 64 then
            let am := encode_addnl text.length
            .ok (hb ++ am.1 ++ text, n + am.2 + text.length)
          else .error .FailCbor
      | .Major4 info list =>
        match encode_hdr major info with
        | .error e => .error e
        | .ok (hb, n) =>
          if list.length < 2 ^ 64 then
            let am := encode_addnl list.length
            match encodeList list (depth + 1) with
            | .error e => .error e
            | .ok (lb, acc) => .ok (hb ++ am.1 ++ lb, n + am.2 + acc)
          else .error .FailConvert
      | .Major5 info map =>
        match encode_hdr major info with
        | .error e => .error e
        | .ok (hb, n) =>
          if map.length < 2 ^ 64 then
            let am := encode_addnl map.length
            match encodePairs map (depth + 1) with
            | .error e => .error e
            | .ok (mb, acc) => .ok (hb ++ am.1 ++ mb, n + am.2 + acc)
          else .error .FailConvert
      | .Major6 info tag =>
        match encode_hdr major info with
        | .error e => .error e
        | .ok (hb, n) =>
          match Tag.encode tag with
          | .error e => .error e
          | .ok (tb, m) => .ok (hb ++ tb, n + m)
      | .Major7 info sval =>
        match encode_hdr major info with
        | .error e => .error e
        | .ok (hb, n) =>
          let sm := SimpleValue.encode sval
          .ok (hb ++ sm.1, n + sm.2)
      | .Binary data => .ok (data, data.length)
termination_by cborSize c
decreasing_by
  all_goals simp [cborSize, cborListSize, cborPairsSize, tagSize]
  all_goals omega

/-- The element loop of `do_encode` for major 4. -/
def encodeList (l : List Cbor) (depth : Nat) : Except Err (List Nat × Nat) :=
  match l with
  | [] => .ok ([], 0)
  | x :: xs =>
    match do_encode x depth with
    | .error e => .error e
    | .ok (xb, k) =>
      match encodeList xs depth with
      | .error e => .error e
      | .ok (rb, acc) => .ok (xb ++ rb, k + acc)
termination_by cborListSize l
decreasing_by
  all_goals simp [cborSize, cborListSize]
  all_goals omega

/-- The pair loop of `do_encode` for major 5: each key is converted through
`Key::into_cbor` and encoded, then the value is encoded. -/
def encodePairs (ps : List (Key × Cbor)) (depth : Nat) :
    Except Err (List Nat × Nat) :=
  match ps with
  | [] => .ok ([], 0)
  | (key, val) :: rest =>
    match hk : Key.into_cbor key with
    | .error e => .error e
    | .ok kc =>
      match do_encode kc depth with
      | .error e => .error e
      | .ok (kb, k1) =>
        match do_encode val depth with
        | .error e => .error e
        | .ok (vb, k2) =>
          match encodePairs rest depth with
          | .error e => .error e
          | .ok (rb, acc) => .ok (kb ++ vb ++ rb, k1 + k2 + acc)
termination_by cborPairsSize ps
decreasing_by
  all_goals simp [cborPairsSize]
  all_goals try omega
  all_goals have h9 := keyImage_size hk
  all_goals omega

/-- `Tag::encode`: the tag number as an additional value; an `Identifier`
payload is encoded through `Cbor::encode`, restarting the depth counter at 1. -/
def Tag.encode (t : Tag) : Except Err (List Nat × Nat) :=
  let am := encode_addnl t.to_tag_value
  match t with
  | .Identifier val =>
    match do_encode val 1 with
    | .error e => .error e
    | .ok (vb, m) => .ok (am.1 ++ vb, am.2 + m)
  | .Value _ => .ok (am.1, am.2)
termination_by tagSize t
decreasing_by
  simp [tagSize, cborSize]

end

/-- `Cbor::encode`: serialize at depth 1. -/
def Cbor.encode (c : Cbor) : Except Err (List Nat × Nat) := do_encode c 1

mutual

/-- `Cbor::do_decode`: recursion-limited deserializer. Returns the value, the
byte count the code reports, and the remaining input (every call consumes at
least the header byte, which drives termination). -/
def do_decode (s : List Nat) (depth : Nat) :
    Except Err (Cbor × Nat × {r : List Nat // r.length < s.length}) :=
  if RECURSION_LIMIT < depth then .error .FailCbor
  else
    match decode_hdr s with
    | .error e => .error e
    | .ok (major, info, n, ⟨r, hr⟩) =>
      match major, info with
      | 0, info =>
        match decode_addnl info r with
        | .error e => .error e
        | .ok (val, m, ⟨r1, h1⟩) =>
          .ok (.Major0 info val, m + n, ⟨r1, by omega⟩)
      | 1, info =>
        match decode_addnl info r with
        | .error e => .error e
        | .ok (val, m, ⟨r1, h1⟩) =>
          .ok (.Major1 info val, m + n, ⟨r1, by omega⟩)
      | 2, .Indefinite =>
        match decodeChunks2 r depth with
        | .error e => .error e
        | .ok (data, m, ⟨r1, h1⟩) =>
          .ok (.Major2 .Indefinite data, m + n, ⟨r1, by omega⟩)
      | 2, info =>
        match decode_addnl info r with
        | .error e => .error e
        | .ok (val, m, ⟨r1, h1⟩) =>
          match readExact val r1 with
          | .error e => .error e
          | .ok (data, ⟨r2, h2⟩) =>
            .ok (.Major2 info data, m + val + n, ⟨r2, by omega⟩)
      | 3, .Indefinite =>
        match decodeChunks3 r depth with
        | .error e => .error e
        | .ok (text, m, ⟨r1, h1⟩) =>
          .ok (.Major3 .Indefinite text, m + n, ⟨r1, by omega⟩)
      | 3, info =>
        match decode_addnl info r with
        | .error e => .error e
        | .ok (val, m, ⟨r1, h1⟩) =>
          match readExact val r1 with
          | .error e => .error e
          | .ok (text, ⟨r2, h2⟩) =>
            .ok (.Major3 info text, m + val + n, ⟨r2, by omega⟩)
      | 4, .Indefinite =>
        match decodeListIndef r depth with
        | .error e => .error e
        | .ok (list, m, ⟨r1, h1⟩) =>
          .ok (.Major4 .Indefinite list, m + n, ⟨r1, by omega⟩)
      | 4, info =>
        match decode_addnl info r with
        | .error e => .error e
        | .ok (len, m, ⟨r1, h1⟩) =>
          match decodeListN len r1 depth with
          | .error e => .error e
          | .ok (list, acc, ⟨r2, h2⟩) =>
            .ok (.Major4 info list, m + acc + n, ⟨r2, by omega⟩)
      | 5, .Indefinite =>
        match decodeMapIndef r depth with
        | .error e => .error e
        | .ok (map, m, ⟨r1, h1⟩) =>
          .ok (.Major5 .Indefinite map, m + n, ⟨r1, by omega⟩)
      | 5, info =>
        match decode_addnl info r with
        | .error e => .error e
        | .ok (len, m, ⟨r1, h1⟩) =>
          match decodeMapN len r1 depth with
          | .error e => .error e
          | .ok (map, acc, ⟨r2, h2⟩) =>
            .ok (.Major5 info map, m + acc + n, ⟨r2, by omega⟩)
      | 6, info =>
        match Tag.decode info r with
        | .error e => .error e
        | .ok (tag, m, ⟨r1, h1⟩) =>
          .ok (.Major6 info tag, m + n, ⟨r1, by omega⟩)
      | 7, info =>
        match SimpleValue.decode info r with
        | .error e => .error e
        | .ok (sval, m, ⟨r1, h1⟩) =>
          .ok (.Major7 info sval, m + n, ⟨r1, by omega⟩)
      | _, _ => .error .panicked
termination_by 2 * s.length
decreasing_by all_goals omega

/-- The indefinite-length chunk loop for major 2: definite chunks are
concatenated until a Break; the Break's own count is not added. -/
def decodeChunks2 (s : List Nat) (depth : Nat) :
    Except Err (List Nat × Nat × {r : List Nat // r.length ≤ s.length}) :=
  match do_decode s (depth + 1) with
  | .error e => .error e
  | .ok (val, k, ⟨r1, h1⟩) =>
    match val with
    | .Major2 _ chunk =>
      match decodeChunks2 r1 depth with
      | .error e => .error e
      | .ok (data, m, ⟨r2, h2⟩) => .ok (chunk ++ data, k + m, ⟨r2, by omega⟩)
    | .Major7 _ .Break => .ok ([], 0, ⟨r1, by omega⟩)
    | _ => .error .FailConvert
termination_by 2 * s.length + 1
decreasing_by all_goals omega

/-- The indefinite-length chunk loop for major 3. -/
def decodeChunks3 (s : List Nat) (depth : Nat) :
    Except Err (List Nat × Nat × {r : List Nat // r.length ≤ s.length}) :=
  match do_decode s (depth + 1) with
  | .error e => .error e
  | .ok (val, k, ⟨r1, h1⟩) =>
    match val with
    | .Major3 _ chunk =>
      match decodeChunks3 r1 depth with
      | .error e => .error e
      | .ok (text, m, ⟨r2, h2⟩) => .ok (chunk ++ text, k + m, ⟨r2, by omega⟩)
    | .Major7 _ .Break => .ok ([], 0, ⟨r1, by omega⟩)
    | _ => .error .FailConvert
termination_by 2 * s.length + 1
decreasing_by all_goals omega

/-- The indefinite-length element loop for major 4. -/
def decodeListIndef (s : List Nat) (depth : Nat) :
    Except Err (List Cbor × Nat × {r : List Nat // r.length ≤ s.length}) :=
  match do_decode s (depth + 1) with
  | .error e => .error e
  | .ok (val, k, ⟨r1, h1⟩) =>
    match val with
    | .Major7 _ .Break => .ok ([], 0, ⟨r1, by omega⟩)
    | item =>
      match decodeListIndef r1 depth with
      | .error e => .error e
      | .ok (list, m, ⟨r2, h2⟩) => .ok (item :: list, k + m, ⟨r2, by omega⟩)
termination_by 2 * s.length + 1
decreasing_by all_goals omega

/-- The definite-length element loop for major 4. -/
def decodeListN (len : Nat) (s : List Nat) (depth : Nat) :
    Except Err (List Cbor × Nat × {r : List Nat // r.length ≤ s.length}) :=
  match len with
  | 0 => .ok ([], 0, ⟨s, le_refl _⟩)
  | len' + 1 =>
    match do_decode s (depth + 1) with
    | .error e => .error e
    | .ok (val, k, ⟨r1, h1⟩) =>
      match decodeListN len' r1 depth with
      | .error e => .error e
      | .ok (list, m, ⟨r2, h2⟩) => .ok (val :: list, k + m, ⟨r2, by omega⟩)
termination_by 2 * s.length + 1
decreasing_by all_goals omega

/-- The indefinite-length pair loop for major 5: a Break in value position
ends the loop (discarding the decoded key); keys pass through
`Key::from_cbor`. -/
def decodeMapIndef (s : List Nat) (depth : Nat) :
    Except Err (List (Key × Cbor) × Nat × {r : List Nat // r.length ≤ s.length}) :=
  match do_decode s (depth + 1) with
  | .error e => .error e
  | .ok (keyc, j, ⟨r1, h1⟩) =>
    match do_decode r1 (depth + 1) with
    | .error e => .error e
    | .ok (valc, k, ⟨r2, h2⟩) =>
      match valc with
      | .Major7 _ .Break => .ok ([], 0, ⟨r2, by omega⟩)
      | val =>
        match Key.from_cbor keyc with
        | .error e => .error e
        | .ok key =>
          match decodeMapIndef r2 depth with
          | .error e => .error e
          | .ok (map, m, ⟨r3, h3⟩) =>
            .ok ((key, val) :: map, j + k + m, ⟨r3, by omega⟩)
termination_by 2 * s.length + 1
decreasing_by all_goals omega

/-- The definite-length pair loop for major 5. -/
def decodeMapN (len : Nat) (s : List Nat) (depth : Nat) :
    Except Err (List (Key × Cbor) × Nat × {r : List Nat // r.length ≤ s.length}) :=
  match len with
  | 0 => .ok ([], 0, ⟨s, le_refl _⟩)
  | len' + 1 =>
    match do_decode s (depth + 1) with
    | .error e => .error e
    | .ok (keyc, j, ⟨r1, h1⟩) =>
      match do_decode r1 (depth + 1) with
      | .error e => .error e
      | .ok (valc, k, ⟨r2, h2⟩) =>
        match Key.from_cbor keyc with
        | .error e => .error e
        | .ok key =>
          match decodeMapN len' r2 depth with
          | .error e => .error e
          | .ok (map, m, ⟨r3, h3⟩) =>
            .ok ((key, valc) :: map, j + k + m, ⟨r3, by omega⟩)
termination_by 2 * s.length + 1
decreasing_by all_goals omega

/-- `Tag::decode`: read the tag number; number 39 recursively decodes one
nested value through `Cbor::decode`, restarting the depth counter at 1. -/
def Tag.decode (info : Info) (s : List Nat) :
    Except Err (Tag × Nat × {r : List Nat // r.length ≤ s.length}) :=
  match decode_addnl info s with
  | .error e => .error e
  | .ok (tagv, n, ⟨r1, h1⟩) =>
    if tagv = 39 then
      match do_decode r1 1 with
      | .error e => .error e
      | .ok (val, m, ⟨r2, h2⟩) => .ok (.Identifier val, m + n, ⟨r2, by omega⟩)
    else .ok (.Value tagv, n, ⟨r1, h1⟩)
termination_by 2 * s.length + 1
decreasing_by all_goals omega

end

/-- Forget the consumption-bound proof on a decoder result. -/
def strip {α : Type} {p : List Nat → Prop}
    (x : Except Err (α × Nat × Subtype p)) : Except Err (α × Nat × List Nat) :=
  match x with
  | .error e => .error e
  | .ok (a, n, r) => .ok (a, n, r.val)

/-- Decoder entry point without the bound: value, count, remaining input. -/
def decodeP (s : List Nat) (depth : Nat) : Except Err (Cbor × Nat × List Nat) :=
  strip (do_decode s depth)

/-- `Cbor::decode`: deserialize at depth 1. -/
def Cbor.decode (s : List Nat) : Except Err (Cbor × Nat × List Nat) := decodeP s 1

/-- Keys that the Rust type system and `Key::into_cbor` admit: `N64` carries a
negative `i64` above `i64::MIN`, magnitudes/lengths fit `u64`, text is the
UTF-8 byte sequence of a Rust `String`. -/
def validKey : Key → Bool
  | .Bool _ => true
  | .N64 i => decide (i64MIN < i) && decide (i < 0)
  | .U64 u => decide (u < 2 ^ 64)
  | .F32 bits => decide (bits < 2 ^ 32)
  | .F64 bits => decide (bits < 2 ^ 64)
  | .Bytes bs => decide (bs.length < 2 ^ 64)
  | .Text s => utf8Valid s && decide (s.length < 2 ^ 64)

mutual

/-- The encoder-producible (well-formed) fragment of the value model: every
`Info` is the canonical one for its magnitude or length, no opaque `Binary`,
no indefinite containers, simple values restricted to the encodable set with
their canonical info, plain tag values different from 39, and map keys
admissible. -/
def validCbor : Cbor → Bool
  | .Major0 info num => decide (info = infoOf num) && decide (num < 2 ^ 64)
  | .Major1 info num => decide (info = infoOf num) && decide (num < 2 ^ 64)
  | .Major2 info bs =>
    decide (info = infoOf bs.length) && decide (bs.length < 2 ^ 64)
  | .Major3 info bs =>
    decide (info = infoOf bs.length) && decide (bs.length < 2 ^ 64)
  | .Major4 info l =>
    decide (info = infoOf l.length) && decide (l.length < 2 ^ 64) &&
      validCborList l
  | .Major5 info m =>
    decide (info = infoOf m.length) && decide (m.length < 2 ^ 64) &&
      validCborPairs m
  | .Major6 info t =>
    match t with
    | .Identifier v => decide (info = infoOf 39) && validCbor v
    | .Value tv =>
      decide (info = infoOf tv) && decide (tv < 2 ^ 64) && decide (tv ≠ 39)
  | .Major7 info sv =>
    match sv with
    | .True => decide (info = Info.Tiny 20)
    | .False => decide (info = Info.Tiny 21)
    | .Null => decide (info = Info.Tiny 22)
    | .F32 bits => decide (info = Info.U32) && decide (bits < 2 ^ 32)
    | .F64 bits => decide (info = Info.U64) && decide (bits < 2 ^ 64)
    | .Break => decide (info = Info.Indefinite)
    | _ => false
  | .Binary _ => false

/-- Well-formedness of a list of values. -/
def validCborList : List Cbor → Bool
  | [] => true
  | c :: cs => validCbor c && validCborList cs

/-- Well-formedness of a list of map pairs. -/
def validCborPairs : List (Key × Cbor) → Bool
  | [] => true
  | (k, v) :: ps => validKey k && validCbor v && validCborPairs ps

end

/-- The info code a legal `Info` is written as (inverse of `infoTryFrom`). -/
def infoCode : Info → Nat
  | .Tiny v => v
  | .U8 => 24
  | .U16 => 25
  | .U32 => 26
  | .U64 => 27
  | .Reserved28 => 28
  | .Reserved29 => 29
  | .Reserved30 => 30
  | .Indefinite => 31

/-- An `Info` whose `Tiny` payload is in range. -/
def legalInfo : Info → Prop
  | .Tiny v => v ≤ 23
  | _ => True

/-- The number of additional-value bytes for a magnitude. -/
def wNum (num : Nat) : Nat :=
  if num ≤ 23 then 0
  else if num ≤ 255 then 1
  else if num ≤ 65535 then 2
  else if num ≤ 4294967295 then 4
  else 8

theorem length_beBytes (w n : Nat) : (beBytes w n).length = w := by
  induction w generalizing n with
  | zero => simp [beBytes]
  | succ w ih => simp [beBytes, ih]

theorem beToNat_append_one (xs : List Nat) (b : Nat) :
    beToNat (xs ++ [b]) = beToNat xs * 256 + b := by
  simp [beToNat, List.foldl_append]

theorem beToNat_beBytes (w n : Nat) (h : n < 256 ^ w) :
    beToNat (beBytes w n) = n := by
  induction w generalizing n with
  | zero =>
    have : n = 0 := by simpa using h
    simp [beBytes, beToNat, this]
  | succ w ih =>
    have hq : n / 256 < 256 ^ w := by
      rw [Nat.div_lt_iff_lt_mul (by norm_num)]
      calc n < 256 ^ (w + 1) := h
        _ = 256 ^ w * 256 := by ring
    rw [beBytes, beToNat_append_one, ih _ hq]
    omega

theorem encode_addnl_eq (num : Nat) :
    encode_addnl num = (beBytes (wNum num) num, wNum num) := by
  unfold encode_addnl wNum
  split_ifs <;> simp [beBytes]

theorem encode_hdr_ok (M : Nat) (info : Info) (h : legalInfo info) :
    encode_hdr M info = .ok ([(M <<< 5) ||| infoCode info], 1) := by
  cases info <;> simp_all [encode_hdr, infoCode, legalInfo]

theorem hdr_bits :
    ∀ M < 8, ∀ C < 32,
      ((M <<< 5) ||| C) &&& 0x1f = C ∧
        (((M <<< 5) ||| C) &&& 0xe0) >>> 5 = M ∧ (M <<< 5) ||| C = 32 * M + C := by
  decide

theorem infoCode_lt (info : Info) (h : legalInfo info) : infoCode info < 32 := by
  cases info <;> simp_all [infoCode, legalInfo] <;> omega

theorem infoTryFrom_infoCode (info : Info) (h : legalInfo info) :
    infoTryFrom (infoCode info) = .ok info := by
  cases info <;> simp_all [infoTryFrom, infoCode, legalInfo]

theorem decode_hdr_cons (M : Nat) (info : Info) (rest : List Nat)
    (hM : M < 8) (hI : legalInfo info) :
    decode_hdr (((M <<< 5) ||| infoCode info) :: rest) =
      .ok (M, info, 1, ⟨rest, by simp⟩) := by
  obtain ⟨h1, h2, _⟩ := hdr_bits M hM (infoCode info) (infoCode_lt info hI)
  simp [decode_hdr, h1, h2, infoTryFrom_infoCode info hI]

theorem readExact_exact (pre rest : List Nat) :
    readExact pre.length (pre ++ rest) =
      .ok (pre, ⟨rest, by simp⟩) := by
  simp [readExact, List.take_left, List.drop_left]

theorem beToNat_beBytes_mod (w n : Nat) :
    beToNat (beBytes w n) = n % 256 ^ w := by
  induction w generalizing n with
  | zero => simp [beBytes, beToNat, Nat.mod_one]
  | succ w ih =>
    rw [beBytes, beToNat_append_one, ih]
    rw [pow_succ, Nat.mul_comm (256 ^ w) 256, Nat.mod_mul]
    ring

theorem legal_infoOf (num : Nat) : legalInfo (infoOf num) := by
  unfold infoOf
  split_ifs <;> simp [legalInfo] <;> omega

/-- Range characterization of the canonical width class. -/
theorem info_w_shape (num : Nat) :
    (num ≤ 23 ∧ infoOf num = .Tiny num ∧ wNum num = 0) ∨
    (24 ≤ num ∧ num ≤ 255 ∧ infoOf num = .U8 ∧ wNum num = 1) ∨
    (256 ≤ num ∧ num ≤ 65535 ∧ infoOf num = .U16 ∧ wNum num = 2) ∨
    (65536 ≤ num ∧ num ≤ 4294967295 ∧ infoOf num = .U32 ∧ wNum num = 4) ∨
    (4294967296 ≤ num ∧ infoOf num = .U64 ∧ wNum num = 8) := by
  unfold infoOf wNum
  split_ifs <;> simp <;> omega

theorem readExact_beBytes (w n : Nat) (rest : List Nat) :
    readExact w (beBytes w n ++ rest) =
      .ok (beBytes w n, ⟨rest, by simp [length_beBytes]⟩) := by
  have hlen := length_beBytes w n
  have ht : (beBytes w n ++ rest).take w = beBytes w n := by
    rw [List.take_append_of_le_length (by omega)]
    exact List.take_of_length_le (by omega)
  have hd : (beBytes w n ++ rest).drop w = rest := by
    rw [List.drop_append_eq_append_drop, List.drop_eq_nil_of_le (by omega)]
    simp [hlen]
  simp [readExact, ht, hd, hlen]

theorem strip_ok {α : Type} {p : List Nat → Prop}
    {x : Except Err (α × Nat × Subtype p)} {a : α} {n : Nat} {r : List Nat} :
    strip x = .ok (a, n, r) ↔ ∃ h : p r, x = .ok (a, n, ⟨r, h⟩) := by
  cases x with
  | error e => simp [strip]
  | ok y =>
    obtain ⟨b, m, rv, hv⟩ := y
    constructor
    · intro h
      simp only [strip, Except.ok.injEq, Prod.mk.injEq] at h
      obtain ⟨rfl, rfl, rfl⟩ := h
      exact ⟨hv, rfl⟩
    · rintro ⟨h, h2⟩
      simp only [Except.ok.injEq, Prod.mk.injEq, Subtype.mk.injEq] at h2
      obtain ⟨rfl, rfl, rfl⟩ := h2
      simp [strip]

theorem strip_error {α : Type} {p : List Nat → Prop}
    {x : Except Err (α × Nat × Subtype p)} {e : Err} :
    strip x = .error e ↔ x = .error e := by
  cases x with
  | error e1 => simp [strip]
  | ok y => obtain ⟨b, m, rv, hv⟩ := y; simp [strip]

/-- The header byte the encoder writes for major `M` and magnitude `num`. -/
def hdrOf (M num : Nat) : Nat := (M <<< 5) ||| infoCode (infoOf num)

/-- The additional-value bytes the encoder writes for magnitude `num`. -/
def addnlOf (num : Nat) : List Nat := beBytes (wNum num) num

theorem decode_addnl_infoOf (num : Nat) (rest : List Nat) :
    strip (decode_addnl (infoOf num) (addnlOf num ++ rest)) =
      .ok (num % 2 ^ 64, wNum num, rest) := by
  have h64 : (2 : Nat) ^ 64 = 18446744073709551616 := by norm_num
  have hb0 : beBytes 0 num = [] := rfl
  rcases info_w_shape num with ⟨h1, hi, hw⟩ | ⟨h1, h2, hi, hw⟩ | ⟨h1, h2, hi, hw⟩ |
    ⟨h1, h2, hi, hw⟩ | ⟨h1, hi, hw⟩ <;>
    rw [addnlOf, hi, hw] <;>
    simp [decode_addnl, readExact_beBytes, beToNat_beBytes_mod, strip, h64, hb0] <;>
    norm_num <;>
    omega

theorem decode_step_major0 (num : Nat) (rest : List Nat) (d : Nat)
    (hd : d ≤ RECURSION_LIMIT) (hnum : num < 2 ^ 64) :
    strip (do_decode (hdrOf 0 num :: (addnlOf num ++ rest)) d) =
      .ok (.Major0 (infoOf num) num, 1 + wNum num, rest) := by
  simp only [hdrOf]
  obtain ⟨hp, heq⟩ := strip_ok.mp (decode_addnl_infoOf num rest)
  rw [Nat.mod_eq_of_lt hnum] at heq
  have hlegal := legal_infoOf num
  simp only [do_decode]
  rw [if_neg (by omega)]
  rcases info_w_shape num with ⟨h1, hi, hw⟩ | ⟨h1, h2, hi, hw⟩ | ⟨h1, h2, hi, hw⟩ |
    ⟨h1, h2, hi, hw⟩ | ⟨h1, hi, hw⟩ <;>
    (rw [hi] at heq hlegal ⊢;
     rw [decode_hdr_cons 0 _ _ (by norm_num) hlegal];
     simp only [];
     rw [heq];
     simp [strip]) <;>
    omega

theorem decode_step_major1 (num : Nat) (rest : List Nat) (d : Nat)
    (hd : d ≤ RECURSION_LIMIT) (hnum : num < 2 ^ 64) :
    strip (do_decode (hdrOf 1 num :: (addnlOf num ++ rest)) d) =
      .ok (.Major1 (infoOf num) num, 1 + wNum num, rest) := by
  simp only [hdrOf]
  obtain ⟨hp, heq⟩ := strip_ok.mp (decode_addnl_infoOf num rest)
  rw [Nat.mod_eq_of_lt hnum] at heq
  have hlegal := legal_infoOf num
  simp only [do_decode]
  rw [if_neg (by omega)]
  rcases info_w_shape num with ⟨h1, hi, hw⟩ | ⟨h1, h2, hi, hw⟩ | ⟨h1, h2, hi, hw⟩ |
    ⟨h1, h2, hi, hw⟩ | ⟨h1, hi, hw⟩ <;>
    (rw [hi] at heq hlegal ⊢;
     rw [decode_hdr_cons 1 _ _ (by norm_num) hlegal];
     simp only [];
     rw [heq];
     simp [strip]) <;>
    omega

theorem decode_step_major2 (bs rest : List Nat) (d : Nat)
    (hd : d ≤ RECURSION_LIMIT) (hlen : bs.length < 2 ^ 64) :
    strip (do_decode (hdrOf 2 bs.length :: (addnlOf bs.length ++ (bs ++ rest))) d) =
      .ok (.Major2 (infoOf bs.length) bs, 1 + wNum bs.length + bs.length, rest) := by
  simp only [hdrOf]
  obtain ⟨hp, heq⟩ := strip_ok.mp (decode_addnl_infoOf bs.length (bs ++ rest))
  rw [Nat.mod_eq_of_lt hlen] at heq
  have hlegal := legal_infoOf bs.length
  have hre := readExact_exact bs rest
  simp only [do_decode]
  rw [if_neg (by omega)]
  rcases info_w_shape bs.length with ⟨h1, hi, hw⟩ | ⟨h1, h2, hi, hw⟩ |
    ⟨h1, h2, hi, hw⟩ | ⟨h1, h2, hi, hw⟩ | ⟨h1, hi, hw⟩ <;>
    (rw [hi] at heq hlegal ⊢;
     rw [decode_hdr_cons 2 _ _ (by norm_num) hlegal];
     simp only [];
     rw [heq];
     simp [strip, hre]) <;>
    omega

theorem decode_step_major3 (bs rest : List Nat) (d : Nat)
    (hd : d ≤ RECURSION_LIMIT) (hlen : bs.length < 2 ^ 64) :
    strip (do_decode (hdrOf 3 bs.length :: (addnlOf bs.length ++ (bs ++ rest))) d) =
      .ok (.Major3 (infoOf bs.length) bs, 1 + wNum bs.length + bs.length, rest) := by
  simp only [hdrOf]
  obtain ⟨hp, heq⟩ := strip_ok.mp (decode_addnl_infoOf bs.length (bs ++ rest))
  rw [Nat.mod_eq_of_lt hlen] at heq
  have hlegal := legal_infoOf bs.length
  have hre := readExact_exact bs rest
  simp only [do_decode]
  rw [if_neg (by omega)]
  rcases info_w_shape bs.length with ⟨h1, hi, hw⟩ | ⟨h1, h2, hi, hw⟩ |
    ⟨h1, h2, hi, hw⟩ | ⟨h1, h2, hi, hw⟩ | ⟨h1, hi, hw⟩ <;>
    (rw [hi] at heq hlegal ⊢;
     rw [decode_hdr_cons 3 _ _ (by norm_num) hlegal];
     simp only [];
     rw [heq];
     simp [strip, hre]) <;>
    omega

theorem decode_step_major4 (len : Nat) (s : List Nat) (d : Nat)
    (hd : d ≤ RECURSION_LIMIT) (hlen : len < 2 ^ 64) :
    strip (do_decode (hdrOf 4 len :: (addnlOf len ++ s)) d) =
      (match decodeListN len s d with
       | .error e => .error e
       | .ok (list, acc, r2) =>
         .ok (.Major4 (infoOf len) list, wNum len + acc + 1, r2.val)) := by
  simp only [hdrOf]
  obtain ⟨hp, heq⟩ := strip_ok.mp (decode_addnl_infoOf len s)
  rw [Nat.mod_eq_of_lt hlen] at heq
  have hlegal := legal_infoOf len
  simp only [do_decode]
  rw [if_neg (by omega)]
  rcases info_w_shape len with ⟨h1, hi, hw⟩ | ⟨h1, h2, hi, hw⟩ |
    ⟨h1, h2, hi, hw⟩ | ⟨h1, h2, hi, hw⟩ | ⟨h1, hi, hw⟩ <;>
    (rw [hi] at heq hlegal ⊢;
     rw [decode_hdr_cons 4 _ _ (by norm_num) hlegal];
     simp only [];
     rw [heq];
     rcases hdl : decodeListN len s d with e | ⟨list, acc, r2, hr2⟩ <;>
       simp [strip, hdl])

theorem decode_step_major5 (len : Nat) (s : List Nat) (d : Nat)
    (hd : d ≤ RECURSION_LIMIT) (hlen : len < 2 ^ 64) :
    strip (do_decode (hdrOf 5 len :: (addnlOf len ++ s)) d) =
      (match decodeMapN len s d with
       | .error e => .error e
       | .ok (map, acc, r2) =>
         .ok (.Major5 (infoOf len) map, wNum len + acc + 1, r2.val)) := by
  simp only [hdrOf]
  obtain ⟨hp, heq⟩ := strip_ok.mp (decode_addnl_infoOf len s)
  rw [Nat.mod_eq_of_lt hlen] at heq
  have hlegal := legal_infoOf len
  simp only [do_decode]
  rw [if_neg (by omega)]
  rcases info_w_shape len with ⟨h1, hi, hw⟩ | ⟨h1, h2, hi, hw⟩ |
    ⟨h1, h2, hi, hw⟩ | ⟨h1, h2, hi, hw⟩ | ⟨h1, hi, hw⟩ <;>
    (rw [hi] at heq hlegal ⊢;
     rw [decode_hdr_cons 5 _ _ (by norm_num) hlegal];
     simp only [];
     rw [heq];
     rcases hdl : decodeMapN len s d with e | ⟨map, acc, r2, hr2⟩ <;>
       simp [strip, hdl])

theorem decode_step_major6_value (tv : Nat) (rest : List Nat) (d : Nat)
    (hd : d ≤ RECURSION_LIMIT) (htv : tv < 2 ^ 64) (h39 : tv ≠ 39) :
    strip (do_decode (hdrOf 6 tv :: (addnlOf tv ++ rest)) d) =
      .ok (.Major6 (infoOf tv) (.Value tv), 1 + wNum tv, rest) := by
  simp only [hdrOf]
  obtain ⟨hp, heq⟩ := strip_ok.mp (decode_addnl_infoOf tv rest)
  rw [Nat.mod_eq_of_lt htv] at heq
  have hlegal := legal_infoOf tv
  simp only [do_decode]
  rw [if_neg (by omega)]
  rcases info_w_shape tv with ⟨h1, hi, hw⟩ | ⟨h1, h2, hi, hw⟩ |
    ⟨h1, h2, hi, hw⟩ | ⟨h1, h2, hi, hw⟩ | ⟨h1, hi, hw⟩ <;>
    (rw [hi] at heq hlegal ⊢;
     rw [decode_hdr_cons 6 _ _ (by norm_num) hlegal];
     simp only [Tag.decode];
     rw [heq];
     simp [strip, h39]) <;>
    omega

theorem decode_step_major6_ident (s : List Nat) (d : Nat)
    (hd : d ≤ RECURSION_LIMIT) :
    strip (do_decode (hdrOf 6 39 :: (addnlOf 39 ++ s)) d) =
      (match decodeP s 1 with
       | .error e => .error e
       | .ok (v, m, r) =>
         .ok (.Major6 (infoOf 39) (.Identifier v), m + wNum 39 + 1, r)) := by
  simp only [hdrOf]
  obtain ⟨hp, heq⟩ := strip_ok.mp (decode_addnl_infoOf 39 s)
  rw [Nat.mod_eq_of_lt (by norm_num)] at heq
  simp only [do_decode]
  rw [if_neg (by omega)]
  rw [show infoOf 39 = Info.U8 from rfl] at heq ⊢
  rw [decode_hdr_cons 6 _ _ (by norm_num) (by simp [legalInfo])]
  simp only [Tag.decode]
  rw [heq]
  simp only [if_pos rfl]
  rcases hdd : do_decode s 1 with e | ⟨v, m, r2, hr2⟩ <;>
    simp [strip, decodeP, hdd, wNum]

theorem decode_step_true (rest : List Nat) (d : Nat) (hd : d ≤ RECURSION_LIMIT) :
    strip (do_decode (((7 <<< 5) ||| infoCode (.Tiny 20)) :: rest) d) =
      .ok (.Major7 (.Tiny 20) .True, 1, rest) := by
  simp only [do_decode]
  rw [if_neg (by omega)]
  rw [decode_hdr_cons 7 (.Tiny 20) _ (by norm_num) (by simp [legalInfo])]
  simp [SimpleValue.decode, strip]

theorem decode_step_false (rest : List Nat) (d : Nat) (hd : d ≤ RECURSION_LIMIT) :
    strip (do_decode (((7 <<< 5) ||| infoCode (.Tiny 21)) :: rest) d) =
      .ok (.Major7 (.Tiny 21) .False, 1, rest) := by
  simp only [do_decode]
  rw [if_neg (by omega)]
  rw [decode_hdr_cons 7 (.Tiny 21) _ (by norm_num) (by simp [legalInfo])]
  simp [SimpleValue.decode, strip]

theorem decode_step_null (rest : List Nat) (d : Nat) (hd : d ≤ RECURSION_LIMIT) :
    strip (do_decode (((7 <<< 5) ||| infoCode (.Tiny 22)) :: rest) d) =
      .ok (.Major7 (.Tiny 22) .Null, 1, rest) := by
  simp only [do_decode]
  rw [if_neg (by omega)]
  rw [decode_hdr_cons 7 (.Tiny 22) _ (by norm_num) (by simp [legalInfo])]
  simp [SimpleValue.decode, strip]

theorem decode_step_break (rest : List Nat) (d : Nat) (hd : d ≤ RECURSION_LIMIT) :
    strip (do_decode (((7 <<< 5) ||| infoCode .Indefinite) :: rest) d) =
      .ok (.Major7 .Indefinite .Break, 1, rest) := by
  simp only [do_decode]
  rw [if_neg (by omega)]
  rw [decode_hdr_cons 7 .Indefinite _ (by norm_num) (by simp [legalInfo])]
  simp [SimpleValue.decode, strip]

theorem decode_step_f32 (bits : Nat) (rest : List Nat) (d : Nat)
    (hd : d ≤ RECURSION_LIMIT) (hb : bits < 2 ^ 32) :
    strip (do_decode (((7 <<< 5) ||| infoCode .U32) :: (beBytes 4 bits ++ rest)) d) =
      .ok (.Major7 .U32 (.F32 bits), 5, rest) := by
  simp only [do_decode]
  rw [if_neg (by omega)]
  rw [decode_hdr_cons 7 .U32 _ (by norm_num) (by simp [legalInfo])]
  simp [SimpleValue.decode, readExact_beBytes, strip,
    beToNat_beBytes 4 bits (by norm_num; omega)]

theorem decode_step_f64 (bits : Nat) (rest : List Nat) (d : Nat)
    (hd : d ≤ RECURSION_LIMIT) (hb : bits < 2 ^ 64) :
    strip (do_decode (((7 <<< 5) ||| infoCode .U64) :: (beBytes 8 bits ++ rest)) d) =
      .ok (.Major7 .U64 (.F64 bits), 9, rest) := by
  simp only [do_decode]
  rw [if_neg (by omega)]
  rw [decode_hdr_cons 7 .U64 _ (by norm_num) (by simp [legalInfo])]
  simp [SimpleValue.decode, readExact_beBytes, strip,
    beToNat_beBytes 8 bits (by norm_num; omega)]

theorem encode_step_major0 (num : Nat) (d : Nat) (hd : d ≤ RECURSION_LIMIT) :
    do_encode (.Major0 (infoOf num) num) d =
      .ok (hdrOf 0 num :: addnlOf num, 1 + wNum num) := by
  simp only [do_encode, to_major_val]
  rw [if_neg (by omega)]
  rw [encode_hdr_ok 0 _ (legal_infoOf num)]
  simp [encode_addnl_eq, hdrOf, addnlOf]

theorem encode_step_major1 (num : Nat) (d : Nat) (hd : d ≤ RECURSION_LIMIT) :
    do_encode (.Major1 (infoOf num) num) d =
      .ok (hdrOf 1 num :: addnlOf num, 1 + wNum num) := by
  simp only [do_encode, to_major_val]
  rw [if_neg (by omega)]
  rw [encode_hdr_ok 1 _ (legal_infoOf num)]
  simp [encode_addnl_eq, hdrOf, addnlOf]

theorem encode_step_major2 (bs : List Nat) (d : Nat) (hd : d ≤ RECURSION_LIMIT)
    (hlen : bs.length < 2 ^ 64) :
    do_encode (.Major2 (infoOf bs.length) bs) d =
      .ok (hdrOf 2 bs.length :: (addnlOf bs.length ++ bs),
        1 + wNum bs.length + bs.length) := by
  have hlen2 : bs.length < 18446744073709551616 := by omega
  simp only [do_encode, to_major_val]
  rw [if_neg (by omega)]
  rw [encode_hdr_ok 2 _ (legal_infoOf bs.length)]
  simp [encode_addnl_eq, hdrOf, addnlOf, hlen2]

theorem encode_step_major3 (bs : List Nat) (d : Nat) (hd : d ≤ RECURSION_LIMIT)
    (hlen : bs.length < 2 ^ 64) :
    do_encode (.Major3 (infoOf bs.length) bs) d =
      .ok (hdrOf 3 bs.length :: (addnlOf bs.length ++ bs),
        1 + wNum bs.length + bs.length) := by
  have hlen2 : bs.length < 18446744073709551616 := by omega
  simp only [do_encode, to_major_val]
  rw [if_neg (by omega)]
  rw [encode_hdr_ok 3 _ (legal_infoOf bs.length)]
  simp [encode_addnl_eq, hdrOf, addnlOf, hlen2]

theorem encode_step_major4 (l : List Cbor) (d : Nat) (hd : d ≤ RECURSION_LIMIT)
    (hlen : l.length < 2 ^ 64) :
    do_encode (.Major4 (infoOf l.length) l) d =
      (match encodeList l (d + 1) with
       | .error e => .error e
       | .ok (lb, acc) =>
         .ok (hdrOf 4 l.length :: (addnlOf l.length ++ lb),
           1 + wNum l.length + acc)) := by
  have hlen2 : l.length < 18446744073709551616 := by omega
  simp only [do_encode, to_major_val]
  rw [if_neg (by omega)]
  rw [encode_hdr_ok 4 _ (legal_infoOf l.length)]
  rcases hel : encodeList l (d + 1) with e | ⟨lb, acc⟩ <;>
    simp [encode_addnl_eq, hdrOf, addnlOf, hlen2, hel]

theorem encode_step_major5 (ps : List (Key × Cbor)) (d : Nat)
    (hd : d ≤ RECURSION_LIMIT) (hlen : ps.length < 2 ^ 64) :
    do_encode (.Major5 (infoOf ps.length) ps) d =
      (match encodePairs ps (d + 1) with
       | .error e => .error e
       | .ok (mb, acc) =>
         .ok (hdrOf 5 ps.length :: (addnlOf ps.length ++ mb),
           1 + wNum ps.length + acc)) := by
  have hlen2 : ps.length < 18446744073709551616 := by omega
  simp only [do_encode, to_major_val]
  rw [if_neg (by omega)]
  rw [encode_hdr_ok 5 _ (legal_infoOf ps.length)]
  rcases hep : encodePairs ps (d + 1) with e | ⟨mb, acc⟩ <;>
    simp [encode_addnl_eq, hdrOf, addnlOf, hlen2, hep]

theorem encode_step_major6_value (tv : Nat) (d : Nat) (hd : d ≤ RECURSION_LIMIT) :
    do_encode (.Major6 (infoOf tv) (.Value tv)) d =
      .ok (hdrOf 6 tv :: addnlOf tv, 1 + wNum tv) := by
  simp only [do_encode, to_major_val]
  rw [if_neg (by omega)]
  rw [encode_hdr_ok 6 _ (legal_infoOf tv)]
  simp [Tag.encode, Tag.to_tag_value, encode_addnl_eq, hdrOf, addnlOf]

theorem encode_step_major6_ident (v : Cbor) (d : Nat) (hd : d ≤ RECURSION_LIMIT) :
    do_encode (.Major6 (infoOf 39) (.Identifier v)) d =
      (match do_encode v 1 with
       | .error e => .error e
       | .ok (vb, m) =>
         .ok (hdrOf 6 39 :: (addnlOf 39 ++ vb), 1 + (wNum 39 + m))) := by
  rcases hev : do_encode v 1 with e | ⟨vb, m⟩ <;>
    (simp only [hev]
     simp only [do_encode, to_major_val]
     rw [if_neg (by omega)]
     rw [encode_hdr_ok 6 _ (legal_infoOf 39)]
     simp [Tag.encode, Tag.to_tag_value, encode_addnl_eq, hdrOf, addnlOf, hev])

theorem encode_step_major7 (info : Info) (sval : SimpleValue) (d : Nat)
    (hd : d ≤ RECURSION_LIMIT) (hI : legalInfo info) :
    do_encode (.Major7 info sval) d =
      .ok (((7 <<< 5) ||| infoCode info) :: (SimpleValue.encode sval).1,
        1 + (SimpleValue.encode sval).2) := by
  simp only [do_encode, to_major_val]
  rw [if_neg (by omega)]
  rw [encode_hdr_ok 7 _ hI]
  simp

theorem key_roundtrip (k : Key) (hv : validKey k = true) :
    ∃ kc, Key.into_cbor k = .ok kc ∧ validCbor kc = true ∧
      Key.from_cbor kc = .ok k := by
  cases k with
  | Bool b =>
    cases b <;>
      exact ⟨_, rfl, by simp [validCbor], rfl⟩
  | N64 i =>
    simp [validKey] at hv
    obtain ⟨h1, h2⟩ := hv
    rw [i64MIN] at h1
    have habs : |i| = -i := abs_of_neg h2
    refine ⟨.Major1 (infoOf (|i| - 1).toNat) (|i| - 1).toNat, ?_, ?_, ?_⟩
    · simp only [Key.into_cbor, i64abs, u64TryFromInt]
      rw [if_neg (by omega), if_neg (by rw [i64MIN]; omega)]
      simp only [habs]
      simp [if_pos (show (0 : Int) ≤ -i - 1 by omega),
        show (1 : Int) ≤ -i by omega]
    · simp [validCbor]
      omega
    · simp only [Key.from_cbor]
      rw [if_neg (by omega), if_pos (by rw [i64MAX]; omega)]
      congr 1
      congr 1
      omega
  | U64 u => exact ⟨_, rfl, by simp_all [validKey, validCbor], rfl⟩
  | F32 b =>
    refine ⟨_, rfl, ?_, rfl⟩
    simp_all [validKey, validCbor, SimpleValue.into_cbor]
  | F64 b =>
    refine ⟨_, rfl, ?_, rfl⟩
    simp_all [validKey, validCbor, SimpleValue.into_cbor]
  | Bytes bs =>
    simp [validKey] at hv
    refine ⟨.Major2 (infoOf bs.length) bs, ?_, ?_, rfl⟩
    · simp [Key.into_cbor, hv]
    · simp [validCbor, hv]
  | Text s =>
    simp [validKey] at hv
    obtain ⟨h1, h2⟩ := hv
    refine ⟨.Major3 (infoOf s.length) s, ?_, ?_, ?_⟩
    · simp [Key.into_cbor, h2]
    · simp [validCbor, h2]
    · simp [Key.from_cbor, h1]

/-- Round-trip property of a single value: a successful encode at depth `d`
decodes back, at the same depth, to the same value, the same count, and
leaves exactly the trailing input. -/
def RTc (v : Cbor) : Prop :=
  ∀ d out n, validCbor v = true → do_encode v d = .ok (out, n) →
    ∀ rest, strip (do_decode (out ++ rest) d) = .ok (v, n, rest)

/-- Round-trip property of an element list (major 4 payload). -/
def RTl (l : List Cbor) : Prop :=
  ∀ d out acc, validCborList l = true → encodeList l (d + 1) = .ok (out, acc) →
    ∀ rest, strip (decodeListN l.length (out ++ rest) d) = .ok (l, acc, rest)

/-- Round-trip property of a pair list (major 5 payload). -/
def RTp (ps : List (Key × Cbor)) : Prop :=
  ∀ d out acc, validCborPairs ps = true → encodePairs ps (d + 1) = .ok (out, acc) →
    ∀ rest, strip (decodeMapN ps.length (out ++ rest) d) = .ok (ps, acc, rest)

theorem encode_depth_le {c : Cbor} {d : Nat} {out : List Nat} {n : Nat}
    (h : do_encode c d = .ok (out, n)) : d ≤ RECURSION_LIMIT := by
  by_contra hc
  simp only [do_encode] at h
  rw [if_pos (by omega)] at h
  exact absurd h (by simp)

theorem rt_all (K : Nat) :
    (∀ v, cborSize v ≤ K → RTc v) ∧ (∀ l, cborListSize l ≤ K → RTl l) ∧
      (∀ ps, cborPairsSize ps ≤ K → RTp ps) := by
  induction K using Nat.strong_induction_on with
  | _ K IH =>
  have IHc : ∀ v, cborSize v < K → RTc v := fun v h => (IH _ h).1 v (le_refl _)
  have IHl : ∀ l, cborListSize l < K → RTl l :=
    fun l h => (IH _ h).2.1 l (le_refl _)
  have IHp : ∀ ps, cborPairsSize ps < K → RTp ps :=
    fun ps h => (IH _ h).2.2 ps (le_refl _)
  refine ⟨?_, ?_, ?_⟩
  · -- single values
    intro v hsize d out n hv henc rest
    have hd : d ≤ RECURSION_LIMIT := encode_depth_le henc
    cases v with
    | Major0 info num =>
      simp [validCbor] at hv
      obtain ⟨rfl, hnum⟩ := hv
      rw [encode_step_major0 num d hd] at henc
      simp only [Except.ok.injEq, Prod.mk.injEq] at henc
      obtain ⟨rfl, rfl⟩ := henc
      rw [List.cons_append]
      exact decode_step_major0 num rest d hd hnum
    | Major1 info num =>
      simp [validCbor] at hv
      obtain ⟨rfl, hnum⟩ := hv
      rw [encode_step_major1 num d hd] at henc
      simp only [Except.ok.injEq, Prod.mk.injEq] at henc
      obtain ⟨rfl, rfl⟩ := henc
      rw [List.cons_append]
      exact decode_step_major1 num rest d hd hnum
    | Major2 info bs =>
      simp [validCbor] at hv
      obtain ⟨rfl, hlen⟩ := hv
      rw [encode_step_major2 bs d hd hlen] at henc
      simp only [Except.ok.injEq, Prod.mk.injEq] at henc
      obtain ⟨rfl, rfl⟩ := henc
      rw [List.cons_append, List.append_assoc]
      exact decode_step_major2 bs rest d hd hlen
    | Major3 info bs =>
      simp [validCbor] at hv
      obtain ⟨rfl, hlen⟩ := hv
      rw [encode_step_major3 bs d hd hlen] at henc
      simp only [Except.ok.injEq, Prod.mk.injEq] at henc
      obtain ⟨rfl, rfl⟩ := henc
      rw [List.cons_append, List.append_assoc]
      exact decode_step_major3 bs rest d hd hlen
    | Major4 info l =>
      simp [validCbor] at hv
      obtain ⟨⟨rfl, hlen⟩, hvl⟩ := hv
      rw [encode_step_major4 l d hd hlen] at henc
      rcases hel : encodeList l (d + 1) with e | ⟨lb, acc⟩ <;> rw [hel] at henc
      · simp at henc
      simp only [Except.ok.injEq, Prod.mk.injEq] at henc
      obtain ⟨rfl, rfl⟩ := henc
      have hsz : cborListSize l < K := by
        simp [cborSize] at hsize; omega
      have hlist := IHl l hsz d lb acc hvl hel rest
      obtain ⟨hp, hdlN⟩ := strip_ok.mp hlist
      rw [List.cons_append, List.append_assoc]
      rw [decode_step_major4 l.length (lb ++ rest) d hd hlen, hdlN]
      simp
      omega
    | Major5 info ps =>
      simp [validCbor] at hv
      obtain ⟨⟨rfl, hlen⟩, hvp⟩ := hv
      rw [encode_step_major5 ps d hd hlen] at henc
      rcases hep : encodePairs ps (d + 1) with e | ⟨mb, acc⟩ <;> rw [hep] at henc
      · simp at henc
      simp only [Except.ok.injEq, Prod.mk.injEq] at henc
      obtain ⟨rfl, rfl⟩ := henc
      have hsz : cborPairsSize ps < K := by
        simp [cborSize] at hsize; omega
      have hmap := IHp ps hsz d mb acc hvp hep rest
      obtain ⟨hp, hdmN⟩ := strip_ok.mp hmap
      rw [List.cons_append, List.append_assoc]
      rw [decode_step_major5 ps.length (mb ++ rest) d hd hlen, hdmN]
      simp
      omega
    | Major6 info t =>
      cases t with
      | Value tv =>
        simp [validCbor] at hv
        obtain ⟨⟨rfl, htv⟩, h39⟩ := hv
        rw [encode_step_major6_value tv d hd] at henc
        simp only [Except.ok.injEq, Prod.mk.injEq] at henc
        obtain ⟨rfl, rfl⟩ := henc
        rw [List.cons_append]
        exact decode_step_major6_value tv rest d hd htv h39
      | Identifier v =>
        simp [validCbor] at hv
        obtain ⟨rfl, hvv⟩ := hv
        rw [encode_step_major6_ident v d hd] at henc
        rcases hev : do_encode v 1 with e | ⟨vb, m⟩ <;> rw [hev] at henc
        · simp at henc
        simp only [Except.ok.injEq, Prod.mk.injEq] at henc
        obtain ⟨rfl, rfl⟩ := henc
        have hsz : cborSize v < K := by
          simp [cborSize, tagSize] at hsize; omega
        have hvdec : decodeP (vb ++ rest) 1 = .ok (v, m, rest) :=
          IHc v hsz 1 vb m hvv hev rest
        rw [List.cons_append, List.append_assoc]
        rw [decode_step_major6_ident (vb ++ rest) d hd, hvdec]
        simp
        omega
    | Major7 info sval =>
      cases sval with
      | True =>
        simp [validCbor] at hv
        subst hv
        rw [encode_step_major7 (.Tiny 20) .True d hd (by simp [legalInfo])] at henc
        simp only [SimpleValue.encode, Except.ok.injEq, Prod.mk.injEq] at henc
        obtain ⟨rfl, rfl⟩ := henc
        simpa using decode_step_true rest d hd
      | False =>
        simp [validCbor] at hv
        subst hv
        rw [encode_step_major7 (.Tiny 21) .False d hd (by simp [legalInfo])] at henc
        simp only [SimpleValue.encode, Except.ok.injEq, Prod.mk.injEq] at henc
        obtain ⟨rfl, rfl⟩ := henc
        simpa using decode_step_false rest d hd
      | Null =>
        simp [validCbor] at hv
        subst hv
        rw [encode_step_major7 (.Tiny 22) .Null d hd (by simp [legalInfo])] at henc
        simp only [SimpleValue.encode, Except.ok.injEq, Prod.mk.injEq] at henc
        obtain ⟨rfl, rfl⟩ := henc
        simpa using decode_step_null rest d hd
      | Break =>
        simp [validCbor] at hv
        subst hv
        rw [encode_step_major7 .Indefinite .Break d hd (by simp [legalInfo])] at henc
        simp only [SimpleValue.encode, Except.ok.injEq, Prod.mk.injEq] at henc
        obtain ⟨rfl, rfl⟩ := henc
        simpa using decode_step_break rest d hd
      | F32 bits =>
        simp [validCbor] at hv
        obtain ⟨rfl, hb⟩ := hv
        rw [encode_step_major7 .U32 (.F32 bits) d hd (by simp [legalInfo])] at henc
        simp only [SimpleValue.encode, Except.ok.injEq, Prod.mk.injEq] at henc
        obtain ⟨rfl, rfl⟩ := henc
        rw [List.cons_append]
        simpa using decode_step_f32 bits rest d hd hb
      | F64 bits =>
        simp [validCbor] at hv
        obtain ⟨rfl, hb⟩ := hv
        rw [encode_step_major7 .U64 (.F64 bits) d hd (by simp [legalInfo])] at henc
        simp only [SimpleValue.encode, Except.ok.injEq, Prod.mk.injEq] at henc
        obtain ⟨rfl, rfl⟩ := henc
        rw [List.cons_append]
        simpa using decode_step_f64 bits rest d hd hb
      | Unassigned => simp [validCbor] at hv
      | Undefined => simp [validCbor] at hv
      | Reserved24 b => simp [validCbor] at hv
      | F16 b => simp [validCbor] at hv
    | Binary bs => simp [validCbor] at hv
  · -- element lists
    intro l hsize d out acc hv henc rest
    cases l with
    | nil =>
      simp only [encodeList, Except.ok.injEq, Prod.mk.injEq] at henc
      obtain ⟨rfl, rfl⟩ := henc
      simp [decodeListN, strip]
    | cons x xs =>
      simp [validCborList] at hv
      obtain ⟨hx, hxs⟩ := hv
      simp only [encodeList] at henc
      rcases hx1 : do_encode x (d + 1) with e | ⟨xb, k⟩ <;> rw [hx1] at henc
      · simp at henc
      rcases hx2 : encodeList xs (d + 1) with e | ⟨rb, acc2⟩ <;> rw [hx2] at henc
      · simp at henc
      simp only [Except.ok.injEq, Prod.mk.injEq] at henc
      obtain ⟨rfl, rfl⟩ := henc
      have hsx : cborSize x < K := by simp [cborListSize] at hsize; omega
      have hsxs : cborListSize xs < K := by simp [cborListSize] at hsize; omega
      have hxdec := IHc x hsx (d + 1) xb k hx (by simpa using hx1) (rb ++ rest)
      have hxsdec := IHl xs hsxs d rb acc2 hxs hx2 rest
      obtain ⟨hp1, hdx⟩ := strip_ok.mp hxdec
      obtain ⟨hp2, hdxs⟩ := strip_ok.mp hxsdec
      simp only [List.length_cons]
      simp only [decodeListN]
      rw [List.append_assoc, hdx]
      simp [strip, hdxs]
  · -- pair lists
    intro ps hsize d out acc hv henc rest
    cases ps with
    | nil =>
      simp only [encodePairs, Except.ok.injEq, Prod.mk.injEq] at henc
      obtain ⟨rfl, rfl⟩ := henc
      simp [decodeMapN, strip]
    | cons p ps =>
      obtain ⟨key, val⟩ := p
      simp [validCborPairs] at hv
      obtain ⟨⟨hkey, hval⟩, hps⟩ := hv
      obtain ⟨kc, hkc, hvkc, hfrom⟩ := key_roundtrip key hkey
      simp only [encodePairs] at henc
      split at henc
      · exact absurd henc (by simp)
      rename_i kc2 heq2
      rw [hkc] at heq2
      simp only [Except.ok.injEq] at heq2
      subst heq2
      rcases he1 : do_encode kc (d + 1) with e | ⟨kb, k1⟩ <;>
        simp only [he1] at henc
      · exact absurd henc (by simp)
      rcases he2 : do_encode val (d + 1) with e | ⟨vb, k2⟩ <;>
        simp only [he2] at henc
      · exact absurd henc (by simp)
      rcases he3 : encodePairs ps (d + 1) with e | ⟨rb, acc3⟩ <;>
        simp only [he3] at henc
      · exact absurd henc (by simp)
      simp only [Except.ok.injEq, Prod.mk.injEq] at henc
      obtain ⟨rfl, rfl⟩ := henc
      have hK2 : 2 ≤ cborPairsSize ((key, val) :: ps) := by
        simp [cborPairsSize]; omega
      have hskc : cborSize kc < K := by
        have := keyImage_size hkc
        simp [cborPairsSize] at hsize
        omega
      have hsval : cborSize val < K := by simp [cborPairsSize] at hsize; omega
      have hsps : cborPairsSize ps < K := by simp [cborPairsSize] at hsize; omega
      have hkdec := IHc kc hskc (d + 1) kb k1 hvkc he1 (vb ++ (rb ++ rest))
      have hvdec := IHc val hsval (d + 1) vb k2 hval he2 (rb ++ rest)
      have hpsdec := IHp ps hsps d rb acc3 hps he3 rest
      obtain ⟨hp1, hd1⟩ := strip_ok.mp hkdec
      obtain ⟨hp2, hd2⟩ := strip_ok.mp hvdec
      obtain ⟨hp3, hd3⟩ := strip_ok.mp hpsdec
      simp only [List.length_cons]
      simp only [decodeMapN]
      rw [List.append_assoc, List.append_assoc, hd1]
      simp [strip, hd2, hfrom, hd3]

/-- C6: encoding the unsigned integer 23 yields the single byte 0x17;
encoding 24 yields 0x18 0x18; encoding the signed integer -1 yields the
single byte 0x20 (major 1, inline magnitude 0); encoding the text string
"ab" yields 0x62 0x61 0x62. -/
theorem C6_concrete_bytes :
    (intoCbor_u64 23).bind Cbor.encode = .ok ([0x17], 1) ∧
    (intoCbor_u64 24).bind Cbor.encode = .ok ([0x18, 0x18], 2) ∧
    (intoCbor_i64 (-1)).bind Cbor.encode = .ok ([0x20], 1) ∧
    (intoCbor_str [0x61, 0x62]).bind Cbor.encode = .ok ([0x62, 0x61, 0x62], 3) := by
  refine ⟨?_, ?_, ?_, ?_⟩ <;>
    simp +decide [intoCbor_u64, intoCbor_i64, intoCbor_str, i64abs, i64MIN,
      u64TryFromInt, Except.bind, Cbor.encode, do_encode, to_major_val,
      encode_hdr, encode_addnl, beBytes, infoOf, RECURSION_LIMIT]

/-- C7: `SimpleValue::into_cbor` succeeds exactly for True, False, Null, F32,
F64 and Break, and fails with a conversion error for Unassigned, Undefined,
Reserved24 and F16. -/
theorem C7_simple_value_encode_policy :
    SimpleValue.True.into_cbor = .ok (.Major7 (.Tiny 20) .True) ∧
    SimpleValue.False.into_cbor = .ok (.Major7 (.Tiny 21) .False) ∧
    SimpleValue.Null.into_cbor = .ok (.Major7 (.Tiny 22) .Null) ∧
    (∀ f, (SimpleValue.F32 f).into_cbor = .ok (.Major7 .U32 (.F32 f))) ∧
    (∀ f, (SimpleValue.F64 f).into_cbor = .ok (.Major7 .U64 (.F64 f))) ∧
    SimpleValue.Break.into_cbor = .ok (.Major7 .Indefinite .Break) ∧
    SimpleValue.Unassigned.into_cbor = .error .FailConvert ∧
    SimpleValue.Undefined.into_cbor = .error .FailConvert ∧
    (∀ b, (SimpleValue.Reserved24 b).into_cbor = .error .FailConvert) ∧
    (∀ bits, (SimpleValue.F16 bits).into_cbor = .error .FailConvert) :=
  ⟨rfl, rfl, rfl, fun _ => rfl, fun _ => rfl, rfl, rfl, rfl,
    fun _ => rfl, fun _ => rfl⟩

/-- C8: `Cbor::encode` on the opaque Binary variant with an empty buffer does
not return a typed error: `to_major_val` indexes `data[0]` unconditionally,
which is an out-of-bounds panic; with a non-empty buffer the bytes are copied
verbatim. -/
theorem C8_binary_empty_panics :
    Cbor.encode (.Binary []) = .error .panicked ∧
    (∀ b bs, Cbor.encode (.Binary (b :: bs)) = .ok (b :: bs, (b :: bs).length)) := by
  constructor
  · simp +decide [Cbor.encode, do_encode, to_major_val, RECURSION_LIMIT]
  · intro b bs
    simp +decide [Cbor.encode, do_encode, to_major_val, RECURSION_LIMIT]

theorem intoCbor_i64_neg (n : Int) (h1 : i64MIN < n) (h2 : n < 0) :
    intoCbor_i64 n = .ok (.Major1 (infoOf (-(n + 1)).toNat) (-(n + 1)).toNat) := by
  rw [i64MIN] at h1
  have habs : |n| = -n := abs_of_neg h2
  simp only [intoCbor_i64, i64abs, u64TryFromInt]
  rw [if_neg (show ¬ (0 : Int) ≤ n by omega),
    if_neg (show ¬ n = i64MIN by rw [i64MIN]; omega)]
  simp only [habs]
  simp [show (1 : Int) ≤ -n by omega,
    show (-n).toNat - 1 = (-(n + 1)).toNat by omega]

theorem keyN64_into_eq (n : Int) (h1 : i64MIN < n) (h2 : n < 0) :
    Key.into_cbor (.N64 n) =
      .ok (.Major1 (infoOf (-(n + 1)).toNat) (-(n + 1)).toNat) := by
  rw [i64MIN] at h1
  have habs : |n| = -n := abs_of_neg h2
  simp only [Key.into_cbor, i64abs, u64TryFromInt]
  rw [if_neg (show ¬ (0 : Int) ≤ n by omega),
    if_neg (show ¬ n = i64MIN by rw [i64MIN]; omega)]
  simp only [habs]
  simp [show (1 : Int) ≤ -n by omega,
    show (-n).toNat - 1 = (-(n + 1)).toNat by omega]

theorem intoCbor_i64_nonneg (m : Int) (hm : 0 ≤ m) :
    intoCbor_i64 m = .ok (.Major0 (infoOf m.toNat) m.toNat) := by
  simp only [intoCbor_i64, u64TryFromInt]
  rw [if_pos hm, if_pos hm]
  simp [intoCbor_u64]

theorem keyN64_into_nonneg (m : Int) (hm : 0 ≤ m) :
    Key.into_cbor (.N64 m) = .error .FailConvert := by
  simp only [Key.into_cbor]
  rw [if_pos hm]

/-- C5 (amended): for every negative signed value strictly above `i64::MIN`,
`IntoCbor` for `i64` produces major 1 with magnitude `-(n+1)`, and this is
the same Cbor value (hence the same bytes) that `Key::N64`'s `IntoCbor`
produces; non-negative values map to major 0 on the `i64` path (the Key path
rejects them). At `i64::MIN` itself both paths panic (see the
counterexample), which is the one exclusion the claim needs. -/
theorem C5_neg_consistency :
    (∀ n : Int, i64MIN < n → n < 0 →
      intoCbor_i64 n = .ok (.Major1 (infoOf (-(n + 1)).toNat) (-(n + 1)).toNat) ∧
      Key.into_cbor (.N64 n) = intoCbor_i64 n) ∧
    (∀ m : Int, 0 ≤ m →
      intoCbor_i64 m = .ok (.Major0 (infoOf m.toNat) m.toNat)) := by
  refine ⟨fun n h1 h2 => ⟨intoCbor_i64_neg n h1 h2, ?_⟩, intoCbor_i64_nonneg⟩
  rw [intoCbor_i64_neg n h1 h2, keyN64_into_eq n h1 h2]

/-- C5 witness: the consistency instance at `n = -5` (magnitude 4). -/
theorem C5_neg_consistency_witness :
    intoCbor_i64 (-5) = .ok (.Major1 (infoOf (-((-5 : Int) + 1)).toNat)
      (-((-5 : Int) + 1)).toNat) ∧
    Key.into_cbor (.N64 (-5)) = intoCbor_i64 (-5) :=
  C5_neg_consistency.1 (-5) (by rw [i64MIN]; norm_num) (by norm_num)

/-- C5 counterexample: the claim as stated covers every negative signed
value, but at `i64::MIN` the conversion computes `val.abs()`, which
overflows (a panic in a debug build) instead of producing major 1 with
magnitude `-(n+1)`. -/
theorem C5_counterexample :
    intoCbor_i64 i64MIN = .error .panicked ∧
    Key.into_cbor (.N64 i64MIN) = .error .panicked := by
  constructor
  · simp only [intoCbor_i64, i64abs]
    rw [if_neg (show ¬ (0 : Int) ≤ i64MIN by rw [i64MIN]; norm_num)]
    simp
  · simp only [Key.into_cbor, i64abs]
    rw [if_neg (show ¬ (0 : Int) ≤ i64MIN by rw [i64MIN]; norm_num)]
    simp

/-- C9: converting `i64::MIN` through `IntoCbor` for `i64`, or
`Key::N64(i64::MIN)` through Key's `IntoCbor`, returns neither `Ok` nor a
typed conversion error: `val.abs()` overflows (panic); above `i64::MIN` both
conversions are total (no panic). -/
theorem C9_i64_min_overflow :
    intoCbor_i64 i64MIN = .error .panicked ∧
    Key.into_cbor (.N64 i64MIN) = .error .panicked ∧
    (∀ n : Int, i64MIN < n → n ≤ i64MAX → intoCbor_i64 n ≠ .error .panicked) ∧
    (∀ n : Int, i64MIN < n → n ≤ i64MAX →
      Key.into_cbor (.N64 n) ≠ .error .panicked) := by
  refine ⟨?_, ?_, ?_, ?_⟩
  · simp only [intoCbor_i64, i64abs]
    rw [if_neg (show ¬ (0 : Int) ≤ i64MIN by rw [i64MIN]; norm_num)]
    simp
  · simp only [Key.into_cbor, i64abs]
    rw [if_neg (show ¬ (0 : Int) ≤ i64MIN by rw [i64MIN]; norm_num)]
    simp
  · intro n h1 h2
    rcases lt_or_le n 0 with hn | hn
    · rw [intoCbor_i64_neg n h1 hn]; simp
    · rw [intoCbor_i64_nonneg n hn]; simp
  · intro n h1 h2
    rcases lt_or_le n 0 with hn | hn
    · rw [keyN64_into_eq n h1 hn]; simp
    · rw [keyN64_into_nonneg n hn]; simp

/-- C9 witness: instances of the totality clauses at `n = -7` and `n = 7`. -/
theorem C9_i64_min_overflow_witness :
    intoCbor_i64 (-7) ≠ .error .panicked ∧
    Key.into_cbor (.N64 7) ≠ .error .panicked :=
  ⟨C9_i64_min_overflow.2.2.1 (-7) (by rw [i64MIN]; norm_num)
      (by rw [i64MAX]; norm_num),
    C9_i64_min_overflow.2.2.2 7 (by rw [i64MIN]; norm_num)
      (by rw [i64MAX]; norm_num)⟩

/-- C10: a major-1 magnitude of `u64::MAX` makes both `Key::from_cbor` and
`FromCbor` for `i64` compute `m + 1` in `u64`, which overflows (panic in a
debug build) rather than yielding `-(m+1)` or a clean conversion error; for
every smaller magnitude the advertised semantics hold (value `-(m+1)` when
it fits `i64`, a typed conversion error otherwise). -/
theorem C10_major1_max_magnitude :
    (∀ info, Key.from_cbor (.Major1 info (2 ^ 64 - 1)) = .error .panicked) ∧
    (∀ info, fromCbor_i64 (.Major1 info (2 ^ 64 - 1)) = .error .panicked) ∧
    (∀ info (m : Nat), m < 2 ^ 64 - 1 →
      ((m : Int) + 1 ≤ i64MAX →
        Key.from_cbor (.Major1 info m) = .ok (.N64 (-((m : Int) + 1))) ∧
        fromCbor_i64 (.Major1 info m) = .ok (-((m : Int) + 1))) ∧
      (i64MAX < (m : Int) + 1 →
        Key.from_cbor (.Major1 info m) = .error .FailConvert ∧
        fromCbor_i64 (.Major1 info m) = .error .FailConvert)) := by
  refine ⟨?_, ?_, ?_⟩
  · intro info
    simp only [Key.from_cbor]
    rw [if_pos (by omega)]
  · intro info
    simp only [fromCbor_i64]
    rw [if_pos (by omega)]
  · intro info m hm
    constructor
    · intro hfit
      constructor
      · simp only [Key.from_cbor]
        rw [if_neg (by omega), if_pos hfit]
      · simp only [fromCbor_i64]
        rw [if_neg (by omega), if_pos hfit]
    · intro hbig
      constructor
      · simp only [Key.from_cbor]
        rw [if_neg (by omega), if_neg (by omega)]
      · simp only [fromCbor_i64]
        rw [if_neg (by omega), if_neg (by omega)]

/-- C10 witness: the in-range clause at magnitude 5 and the out-of-range
clause at magnitude `2^63`. -/
theorem C10_major1_max_magnitude_witness :
    Key.from_cbor (.Major1 .U8 5) = .ok (.N64 (-((5 : Int) + 1))) ∧
    fromCbor_i64 (.Major1 .U64 (2 ^ 63)) = .error .FailConvert :=
  ⟨((C10_major1_max_magnitude.2.2 .U8 5 (by norm_num)).1
      (by rw [i64MAX]; norm_num)).1,
    ((C10_major1_max_magnitude.2.2 .U64 (2 ^ 63) (by norm_num)).2
      (by rw [i64MAX]; norm_num)).2⟩

/-- C3: for every 64-bit magnitude the encoder picks the smallest width
class: inline for 0-23, else the smallest of 1/2/4/8 big-endian bytes that
can represent the magnitude, consistently between `Info::from(u64)` and the
bytes emitted by `encode_addnl`. -/
theorem C3_minimal_width (m : Nat) (hm : m < 2 ^ 64) :
    (m ≤ 23 → infoOf m = .Tiny m ∧ encode_addnl m = ([], 0)) ∧
    (24 ≤ m →
      (encode_addnl m).1.length = (encode_addnl m).2 ∧
      m < 2 ^ (8 * (encode_addnl m).2) ∧
      (∀ w, w ∈ ([1, 2, 4, 8] : List Nat) → m < 2 ^ (8 * w) →
        (encode_addnl m).2 ≤ w) ∧
      infoOf m = (match (encode_addnl m).2 with
        | 1 => Info.U8 | 2 => Info.U16 | 4 => Info.U32 | _ => Info.U64)) := by
  rcases info_w_shape m with ⟨h1, hi, hw⟩ | ⟨h1, h2, hi, hw⟩ | ⟨h1, h2, hi, hw⟩ |
    ⟨h1, h2, hi, hw⟩ | ⟨h1, hi, hw⟩ <;>
    rw [encode_addnl_eq, hi, hw]
  · exact ⟨fun hle => ⟨rfl, rfl⟩, fun h24 => absurd h24 (by omega)⟩
  · refine ⟨fun hle => absurd hle (by omega), fun h24 => ⟨?_, ?_, ?_, rfl⟩⟩
    · simp [length_beBytes]
    · norm_num; omega
    · intro w hwmem hmw
      simp at hwmem
      rcases hwmem with rfl | rfl | rfl | rfl <;> norm_num at hmw ⊢ <;> omega
  · refine ⟨fun hle => absurd hle (by omega), fun h24 => ⟨?_, ?_, ?_, rfl⟩⟩
    · simp [length_beBytes]
    · norm_num; omega
    · intro w hwmem hmw
      simp at hwmem
      rcases hwmem with rfl | rfl | rfl | rfl <;> norm_num at hmw ⊢ <;> omega
  · refine ⟨fun hle => absurd hle (by omega), fun h24 => ⟨?_, ?_, ?_, rfl⟩⟩
    · simp [length_beBytes]
    · norm_num; omega
    · intro w hwmem hmw
      simp at hwmem
      rcases hwmem with rfl | rfl | rfl | rfl <;> norm_num at hmw ⊢ <;> omega
  · refine ⟨fun hle => absurd hle (by omega), fun h24 => ⟨?_, ?_, ?_, rfl⟩⟩
    · simp [length_beBytes]
    · norm_num; omega
    · intro w hwmem hmw
      simp at hwmem
      rcases hwmem with rfl | rfl | rfl | rfl <;> norm_num at hmw ⊢ <;> omega

/-- C3 witness: the width choice at magnitude 300 (two bytes, `U16`). -/
theorem C3_minimal_width_witness :
    (encode_addnl 300).1.length = (encode_addnl 300).2 ∧
    300 < 2 ^ (8 * (encode_addnl 300).2) ∧
    infoOf 300 = (match (encode_addnl 300).2 with
      | 1 => Info.U8 | 2 => Info.U16 | 4 => Info.U32 | _ => Info.U64) :=
  ⟨((C3_minimal_width 300 (by norm_num)).2 (by norm_num)).1,
    ((C3_minimal_width 300 (by norm_num)).2 (by norm_num)).2.1,
    ((C3_minimal_width 300 (by norm_num)).2 (by norm_num)).2.2.2⟩

/-- C1 counterexample: the claim quantifies over every constructible value
with any `Info`, but a non-canonical `Info` breaks the round trip: the value
`Major0 (Tiny 0) 24` encodes to the two bytes `0x00 0x18` (the header says
inline 0 while the additional value writes one byte), and decoding those
bytes consumes one byte and yields `Major0 (Tiny 0) 0` — a different value
and a different byte count. -/
theorem C1_counterexample :
    Cbor.encode (.Major0 (.Tiny 0) 24) = .ok ([0x00, 0x18], 2) ∧
    Cbor.decode [0x00, 0x18] = .ok (.Major0 (.Tiny 0) 0, 1, [0x18]) ∧
    Cbor.Major0 (.Tiny 0) 0 ≠ Cbor.Major0 (.Tiny 0) 24 ∧ (1 : Nat) ≠ 2 := by
  refine ⟨?_, ?_, by simp, by simp⟩
  · simp +decide [Cbor.encode, do_encode, to_major_val, encode_hdr,
      encode_addnl, beBytes, RECURSION_LIMIT]
  · simp +decide [Cbor.decode, decodeP, do_decode, decode_hdr, infoTryFrom,
      decode_addnl, strip, RECURSION_LIMIT]

/-- C1 (amended): on the well-formed fragment (`validCbor`: canonical `Info`
for every magnitude and length, no opaque `Binary`, no indefinite containers,
encodable simple values with their canonical info, plain tag numbers other
than 39, and admissible map keys), whenever encoding succeeds, decoding the
produced bytes yields the same value back, reports the same byte count that
encode reported, and consumes exactly the encoded bytes, leaving any trailing
input untouched. -/
theorem C1_roundtrip (v : Cbor) (out : List Nat) (n : Nat) (rest : List Nat)
    (hv : validCbor v = true) (henc : Cbor.encode v = .ok (out, n)) :
    Cbor.decode (out ++ rest) = .ok (v, n, rest) :=
  (rt_all (cborSize v)).1 v (le_refl _) 1 out n hv henc rest

/-- C1 witness: the singleton map `{U64 1 : uint 2}` encodes to
`0xA1 0x01 0x02` and decodes back to itself with count 3. -/
theorem C1_roundtrip_witness :
    validCbor (.Major5 (.Tiny 1) [(Key.U64 1, .Major0 (.Tiny 2) 2)]) = true ∧
    Cbor.encode (.Major5 (.Tiny 1) [(Key.U64 1, .Major0 (.Tiny 2) 2)]) =
      .ok ([0xA1, 0x01, 0x02], 3) ∧
    Cbor.decode [0xA1, 0x01, 0x02] =
      .ok (.Major5 (.Tiny 1) [(Key.U64 1, .Major0 (.Tiny 2) 2)], 3, []) := by
  have hv : validCbor (.Major5 (.Tiny 1) [(Key.U64 1, .Major0 (.Tiny 2) 2)]) = true := by
    simp +decide [validCbor, validCborPairs, validKey, infoOf]
  have henc : Cbor.encode (.Major5 (.Tiny 1) [(Key.U64 1, .Major0 (.Tiny 2) 2)]) =
      .ok ([0xA1, 0x01, 0x02], 3) := by
    simp +decide [Cbor.encode, do_encode, encodePairs, Key.into_cbor,
      to_major_val, encode_hdr, encode_addnl, beBytes, RECURSION_LIMIT, infoOf]
  refine ⟨hv, henc, ?_⟩
  have h := C1_roundtrip (.Major5 (.Tiny 1) [(Key.U64 1, .Major0 (.Tiny 2) 2)])
    [0xA1, 0x01, 0x02] 3 [] hv henc
  simpa using h

/-- A value nested through arrays: `n` singleton arrays around a leaf. -/
def nestA : Nat → Cbor
  | 0 => .Major0 (.Tiny 0) 0
  | n + 1 => .Major4 (.Tiny 1) [nestA n]

/-- The encoding of `nestA n`: `n` array headers and the leaf byte. -/
def arrBytes : Nat → List Nat
  | 0 => [0]
  | n + 1 => 129 :: arrBytes n

/-- A value nested through maps: `n` singleton maps (key `Bool true`). -/
def nestM : Nat → Cbor
  | 0 => .Major0 (.Tiny 0) 0
  | n + 1 => .Major5 (.Tiny 1) [(Key.Bool true, nestM n)]

/-- The encoding of `nestM n`. -/
def mapBytes : Nat → List Nat
  | 0 => [0]
  | n + 1 => 161 :: 244 :: mapBytes n

/-- A value nested through Identifier tags. -/
def nestT : Nat → Cbor
  | 0 => .Major0 (.Tiny 0) 0
  | n + 1 => .Major6 .U8 (.Identifier (nestT n))

/-- The encoding of `nestT n`. -/
def tagBytes : Nat → List Nat
  | 0 => [0]
  | n + 1 => 216 :: 39 :: tagBytes n

theorem do_encode_depth_fail (c : Cbor) (d : Nat) (hd : RECURSION_LIMIT < d) :
    do_encode c d = .error .FailCbor := by
  simp only [do_encode]
  rw [if_pos hd]

theorem do_decode_depth_fail (s : List Nat) (d : Nat) (hd : RECURSION_LIMIT < d) :
    do_decode s d = .error .FailCbor := by
  simp only [do_decode]
  rw [if_pos hd]

theorem validA (n : Nat) : validCbor (nestA n) = true := by
  induction n with
  | zero => simp +decide [nestA, validCbor, infoOf]
  | succ n ih => simp +decide [nestA, validCbor, validCborList, infoOf, ih]

theorem validM (n : Nat) : validCbor (nestM n) = true := by
  induction n with
  | zero => simp +decide [nestM, validCbor, infoOf]
  | succ n ih =>
    simp +decide [nestM, validCbor, validCborPairs, validKey, infoOf, ih]

theorem validT (n : Nat) : validCbor (nestT n) = true := by
  induction n with
  | zero => simp +decide [nestT, validCbor, infoOf]
  | succ n ih => simp +decide [nestT, validCbor, infoOf, ih]

theorem encA (n : Nat) : ∀ d, 1 ≤ d → d + n ≤ 1000 →
    do_encode (nestA n) d = .ok (arrBytes n, n + 1) := by
  induction n with
  | zero =>
    intro d h1 h2
    have h := encode_step_major0 0 d (by simp [RECURSION_LIMIT]; omega)
    simpa +decide [nestA, arrBytes, hdrOf, addnlOf, wNum, infoCode, infoOf,
      beBytes] using h
  | succ n ih =>
    intro d h1 h2
    have hd : d ≤ RECURSION_LIMIT := by simp [RECURSION_LIMIT]; omega
    rw [show nestA (n + 1) =
      (.Major4 (infoOf (List.length [nestA n])) [nestA n] : Cbor) from rfl]
    rw [encode_step_major4 [nestA n] d hd (by simp)]
    simp only [encodeList]
    rw [ih (d + 1) (by omega) (by omega)]
    simp +decide [arrBytes, hdrOf, addnlOf, wNum, infoCode, infoOf, beBytes]
    omega

theorem encA_fail (n : Nat) : ∀ d, 1 ≤ d → 1000 < d + n →
    do_encode (nestA n) d = .error .FailCbor := by
  induction n with
  | zero =>
    intro d h1 h2
    exact do_encode_depth_fail _ _ (by simp [RECURSION_LIMIT]; omega)
  | succ n ih =>
    intro d h1 h2
    by_cases hd : RECURSION_LIMIT < d
    · exact do_encode_depth_fail _ _ hd
    · have hd2 : d ≤ RECURSION_LIMIT := by omega
      rw [show nestA (n + 1) =
        (.Major4 (infoOf (List.length [nestA n])) [nestA n] : Cbor) from rfl]
      rw [encode_step_major4 [nestA n] d hd2 (by simp)]
      simp only [encodeList]
      rw [ih (d + 1) (by omega)
        (by simp [RECURSION_LIMIT] at hd2; omega)]

theorem decA (n d : Nat) (tail : List Nat) (h1 : 1 ≤ d) (h2 : d + n ≤ 1000) :
    decodeP (arrBytes n ++ tail) d = .ok (nestA n, n + 1, tail) :=
  (rt_all (cborSize (nestA n))).1 (nestA n) (le_refl _) d (arrBytes n) (n + 1)
    (validA n) (encA n d h1 h2) tail

theorem decA_fail (n : Nat) : ∀ d tail, 1 ≤ d → 1000 < d + n →
    decodeP (arrBytes n ++ tail) d = .error .FailCbor := by
  induction n with
  | zero =>
    intro d tail h1 h2
    have h := do_decode_depth_fail (arrBytes 0 ++ tail) d
      (by simp [RECURSION_LIMIT]; omega)
    simp [decodeP, h, strip]
  | succ n ih =>
    intro d tail h1 h2
    by_cases hd : RECURSION_LIMIT < d
    · have h := do_decode_depth_fail (arrBytes (n + 1) ++ tail) d hd
      simp [decodeP, h, strip]
    · have hd2 : d ≤ RECURSION_LIMIT := by omega
      show strip (do_decode (hdrOf 4 1 :: (addnlOf 1 ++ (arrBytes n ++ tail))) d) =
        .error .FailCbor
      rw [decode_step_major4 1 (arrBytes n ++ tail) d hd2 (by norm_num)]
      simp only [decodeListN]
      have hin : strip (do_decode (arrBytes n ++ tail) (d + 1)) =
          .error .FailCbor :=
        ih (d + 1) tail (by omega) (by simp [RECURSION_LIMIT] at hd2; omega)
      rw [strip_error.mp hin]

theorem encT (n : Nat) : ∀ d, 1 ≤ d → d ≤ 1000 →
    do_encode (nestT n) d = .ok (tagBytes n, 2 * n + 1) := by
  induction n with
  | zero =>
    intro d h1 h2
    have h := encode_step_major0 0 d (by simp [RECURSION_LIMIT]; omega)
    simpa +decide [nestT, tagBytes, hdrOf, addnlOf, wNum, infoCode, infoOf,
      beBytes] using h
  | succ n ih =>
    intro d h1 h2
    rw [show nestT (n + 1) =
      (.Major6 (infoOf 39) (.Identifier (nestT n)) : Cbor) from rfl]
    rw [encode_step_major6_ident (nestT n) d (by simp [RECURSION_LIMIT]; omega)]
    rw [ih 1 (by omega) (by omega)]
    simp +decide [tagBytes, hdrOf, addnlOf, wNum, infoCode, infoOf, beBytes]
    omega

theorem decT (n d : Nat) (tail : List Nat) (h1 : 1 ≤ d) (h2 : d ≤ 1000) :
    decodeP (tagBytes n ++ tail) d = .ok (nestT n, 2 * n + 1, tail) :=
  (rt_all (cborSize (nestT n))).1 (nestT n) (le_refl _) d (tagBytes n)
    (2 * n + 1) (validT n) (encT n d h1 h2) tail

theorem encM (n : Nat) : ∀ d, 1 ≤ d → d + n ≤ 1000 →
    do_encode (nestM n) d = .ok (mapBytes n, 2 * n + 1) := by
  induction n with
  | zero =>
    intro d h1 h2
    have h := encode_step_major0 0 d (by simp [RECURSION_LIMIT]; omega)
    simpa +decide [nestM, mapBytes, hdrOf, addnlOf, wNum, infoCode, infoOf,
      beBytes] using h
  | succ n ih =>
    intro d h1 h2
    have hd : d ≤ RECURSION_LIMIT := by simp [RECURSION_LIMIT]; omega
    rw [show nestM (n + 1) =
      (.Major5 (infoOf (List.length [(Key.Bool true, nestM n)]))
        [(Key.Bool true, nestM n)] : Cbor) from rfl]
    rw [encode_step_major5 [(Key.Bool true, nestM n)] d hd (by simp)]
    simp only [encodePairs, Key.into_cbor, SimpleValue.into_cbor]
    rw [encode_step_major7 (.Tiny 20) .True (d + 1)
      (by simp [RECURSION_LIMIT]; omega) (by simp [legalInfo])]
    rw [ih (d + 1) (by omega) (by omega)]
    simp +decide [mapBytes, hdrOf, addnlOf, wNum, infoCode, infoOf, beBytes,
      SimpleValue.encode]
    omega

theorem encM_fail (n : Nat) : ∀ d, 1 ≤ d → 1000 < d + n →
    do_encode (nestM n) d = .error .FailCbor := by
  induction n with
  | zero =>
    intro d h1 h2
    exact do_encode_depth_fail _ _ (by simp [RECURSION_LIMIT]; omega)
  | succ n ih =>
    intro d h1 h2
    by_cases hd : RECURSION_LIMIT < d
    · exact do_encode_depth_fail _ _ hd
    · have hd2 : d ≤ RECURSION_LIMIT := by omega
      rw [show nestM (n + 1) =
        (.Major5 (infoOf (List.length [(Key.Bool true, nestM n)]))
          [(Key.Bool true, nestM n)] : Cbor) from rfl]
      rw [encode_step_major5 [(Key.Bool true, nestM n)] d hd2 (by simp)]
      simp only [encodePairs, Key.into_cbor, SimpleValue.into_cbor]
      by_cases hd1 : RECURSION_LIMIT < d + 1
      · rw [do_encode_depth_fail (.Major7 (.Tiny 20) .True) (d + 1) hd1]
      · rw [encode_step_major7 (.Tiny 20) .True (d + 1) (by omega)
          (by simp [legalInfo])]
        rw [ih (d + 1) (by omega)
          (by simp [RECURSION_LIMIT] at hd2; omega)]

theorem decM (n d : Nat) (tail : List Nat) (h1 : 1 ≤ d) (h2 : d + n ≤ 1000) :
    decodeP (mapBytes n ++ tail) d = .ok (nestM n, 2 * n + 1, tail) :=
  (rt_all (cborSize (nestM n))).1 (nestM n) (le_refl _) d (mapBytes n)
    (2 * n + 1) (validM n) (encM n d h1 h2) tail

theorem decM_fail (n : Nat) : ∀ d tail, 1 ≤ d → 1000 < d + n →
    decodeP (mapBytes n ++ tail) d = .error .FailCbor := by
  induction n with
  | zero =>
    intro d tail h1 h2
    have h := do_decode_depth_fail (mapBytes 0 ++ tail) d
      (by simp [RECURSION_LIMIT]; omega)
    simp [decodeP, h, strip]
  | succ n ih =>
    intro d tail h1 h2
    by_cases hd : RECURSION_LIMIT < d
    · have h := do_decode_depth_fail (mapBytes (n + 1) ++ tail) d hd
      simp [decodeP, h, strip]
    · have hd2 : d ≤ RECURSION_LIMIT := by omega
      show strip (do_decode
        (hdrOf 5 1 :: (addnlOf 1 ++ (244 :: (mapBytes n ++ tail)))) d) =
        .error .FailCbor
      rw [decode_step_major5 1 (244 :: (mapBytes n ++ tail)) d hd2 (by norm_num)]
      simp only [decodeMapN]
      by_cases hd1 : RECURSION_LIMIT < d + 1
      · rw [do_decode_depth_fail (244 :: (mapBytes n ++ tail)) (d + 1) hd1]
      · have h244 : strip (do_decode ((244 : Nat) :: (mapBytes n ++ tail)) (d + 1)) =
            .ok (.Major7 (.Tiny 20) .True, 1, mapBytes n ++ tail) :=
          decode_step_true (mapBytes n ++ tail) (d + 1) (by omega)
        obtain ⟨hp, hkeq⟩ := strip_ok.mp h244
        rw [hkeq]
        have hin : strip (do_decode (mapBytes n ++ tail) (d + 1)) =
            .error .FailCbor :=
          ih (d + 1) tail (by omega) (by simp [RECURSION_LIMIT] at hd2; omega)
        simp [strip, strip_error.mp hin]

theorem decode_step_major2_indef (s : List Nat) (d : Nat)
    (hd : d ≤ RECURSION_LIMIT) :
    strip (do_decode (95 :: s) d) =
      (match decodeChunks2 s d with
       | .error e => .error e
       | .ok (data, m, r1) =>
         .ok (.Major2 .Indefinite data, m + 1, r1.val)) := by
  simp only [do_decode]
  rw [if_neg (by simp [RECURSION_LIMIT] at hd ⊢; omega)]
  rw [show ((95 : Nat) :: s) =
    (((2 : Nat) <<< 5) ||| infoCode .Indefinite) :: s from rfl]
  rw [decode_hdr_cons 2 .Indefinite s (by norm_num) (by simp [legalInfo])]
  rcases h : decodeChunks2 s d with e | ⟨data, m, r1, hr1⟩ <;> simp [strip, h]

theorem decodeChunks2_step (s : List Nat) (d : Nat) :
    strip (decodeChunks2 s d) =
      (match do_decode s (d + 1) with
       | .error e => .error e
       | .ok (val, k, r1) =>
         match val with
         | .Major2 _ chunk =>
           (match strip (decodeChunks2 r1.val d) with
            | .error e => .error e
            | .ok (data, m, r2) => .ok (chunk ++ data, k + m, r2))
         | .Major7 _ .Break => .ok ([], 0, r1.val)
         | _ => .error .FailConvert) := by
  rw [decodeChunks2.eq_def]
  rcases hdd : do_decode s (d + 1) with e | ⟨val, k, r1, h1⟩
  · simp [strip]
  · cases val with
    | Major2 info chunk =>
      rcases hc : decodeChunks2 r1 d with e | ⟨data, m, r2, h2⟩ <;>
        simp [strip, hc]
    | Major7 info sval =>
      cases sval <;> simp [strip]
    | Major0 info num => simp [strip]
    | Major1 info num => simp [strip]
    | Major3 info bs => simp [strip]
    | Major4 info l => simp [strip]
    | Major5 info m2 => simp [strip]
    | Major6 info t => simp [strip]
    | Binary bs => simp [strip]

theorem chunksBreak (tail : List Nat) (d : Nat) (hd : d + 1 ≤ 1000) :
    strip (decodeChunks2 (255 :: tail) d) = .ok ([], 0, tail) := by
  rw [decodeChunks2_step]
  obtain ⟨hp, hbe⟩ := strip_ok.mp
    (show strip (do_decode ((255 : Nat) :: tail) (d + 1)) =
      .ok (.Major7 .Indefinite .Break, 1, tail) from
      decode_step_break tail (d + 1) (by simp [RECURSION_LIMIT]; omega))
  rw [hbe]

theorem indefPair (n : Nat) :
    (∀ d tail, 1 ≤ n → 1 ≤ d → d + n ≤ 1000 →
      decodeP (List.replicate n 95 ++ (List.replicate n 255 ++ tail)) d =
        .ok (.Major2 .Indefinite [], n, tail)) ∧
    (∀ d tail, 1 ≤ d → d + n + 1 ≤ 1000 →
      strip (decodeChunks2
        (List.replicate n 95 ++ (List.replicate (n + 1) 255 ++ tail)) d) =
        .ok ([], n, tail)) := by
  induction n with
  | zero =>
    constructor
    · intro d tail h0 h1 h2
      exact absurd h0 (by norm_num)
    · intro d tail h1 h2
      show strip (decodeChunks2 (255 :: tail) d) = .ok ([], 0, tail)
      exact chunksBreak tail d (by omega)
  | succ n ih =>
    have hdec : ∀ d tail, 1 ≤ d → d + (n + 1) ≤ 1000 →
        decodeP (List.replicate (n + 1) 95 ++
          (List.replicate (n + 1) 255 ++ tail)) d =
          .ok (.Major2 .Indefinite [], n + 1, tail) := by
      intro d tail h1 h2
      show strip (do_decode
        (95 :: (List.replicate n 95 ++ (List.replicate (n + 1) 255 ++ tail)))
        d) = .ok (.Major2 .Indefinite [], n + 1, tail)
      rw [decode_step_major2_indef _ d (by simp [RECURSION_LIMIT]; omega)]
      obtain ⟨hp, hce⟩ := strip_ok.mp (ih.2 d tail (by omega) (by omega))
      rw [hce]
    refine ⟨fun d tail h0 h1 h2 => hdec d tail h1 h2, ?_⟩
    intro d tail h1 h2
    have hsplit : List.replicate (n + 1 + 1) 255 ++ tail =
        List.replicate (n + 1) 255 ++ (255 :: tail) := by
      rw [List.replicate_succ']
      simp
    rw [hsplit]
    rw [decodeChunks2_step]
    obtain ⟨hp, hfe⟩ := strip_ok.mp
      (show strip (do_decode (List.replicate (n + 1) 95 ++
        (List.replicate (n + 1) 255 ++ (255 :: tail))) (d + 1)) =
        .ok (.Major2 .Indefinite [], n + 1, 255 :: tail) from
        hdec (d + 1) (255 :: tail) (by omega) (by omega))
    rw [hfe]
    simp only []
    rw [chunksBreak tail d (by omega)]
    simp

theorem indefFailPair (n : Nat) :
    (∀ d tail, 1 ≤ n → 1 ≤ d → 1000 < d + n →
      decodeP (List.replicate n 95 ++ tail) d = .error .FailCbor) ∧
    (∀ d tail, 1000 < d + n + 1 →
      strip (decodeChunks2 (List.replicate n 95 ++ tail) d) =
        .error .FailCbor) := by
  induction n with
  | zero =>
    constructor
    · intro d tail h0 h1 h2
      exact absurd h0 (by norm_num)
    · intro d tail h2
      show strip (decodeChunks2 tail d) = .error .FailCbor
      rw [decodeChunks2_step,
        do_decode_depth_fail tail (d + 1) (by simp [RECURSION_LIMIT]; omega)]
  | succ n ih =>
    have hdecf : ∀ d tail, 1 ≤ d → 1000 < d + (n + 1) →
        decodeP (List.replicate (n + 1) 95 ++ tail) d = .error .FailCbor := by
      intro d tail h1 h2
      by_cases hd : RECURSION_LIMIT < d
      · exact strip_error.mpr (do_decode_depth_fail _ d hd)
      · have hd2 : d ≤ RECURSION_LIMIT := by omega
        show strip (do_decode (95 :: (List.replicate n 95 ++ tail)) d) =
          .error .FailCbor
        rw [decode_step_major2_indef _ d hd2]
        rw [strip_error.mp
          (ih.2 d tail (by simp [RECURSION_LIMIT] at hd2; omega))]
    refine ⟨fun d tail h0 h1 h2 => hdecf d tail h1 h2, ?_⟩
    intro d tail h2
    rw [decodeChunks2_step]
    rw [strip_error.mp (hdecf (d + 1) tail (by omega) (by omega))]

/-- C2 (counterexample): the recursion guard does not apply to Identifier-tag
payloads. `Tag::encode` calls `val.encode`, and `Tag::decode` calls
`Cbor::decode`, both of which restart the depth counter at 1, so a value
nested 1001 levels deep through Identifier tags encodes and decodes
successfully instead of failing with a structural error. -/
theorem C2_counterexample :
    Cbor.encode (nestT 1001) = .ok (tagBytes 1001, 2003) ∧
    Cbor.decode (tagBytes 1001) = .ok (nestT 1001, 2003, []) := by
  refine ⟨?_, ?_⟩
  · show do_encode (nestT 1001) 1 = _
    rw [encT 1001 1 (by norm_num) (by norm_num)]
  · show decodeP (tagBytes 1001) 1 = _
    have h := decT 1001 1 [] (by norm_num) (by norm_num)
    rw [List.append_nil] at h
    rw [h]

/-- C2 (amended): with the depth counter starting at 1 and failing with
`Err::FailCbor` once it exceeds 1000, an array or map nest of `n` wrappers
around a leaf encodes and decodes successfully for `n ≤ 999` (a thousand
levels counting the leaf) and fails with the structural error `FailCbor` for
`n ≥ 1000`, on both encode and decode; an indefinite-length byte-string nest
of `n` wrappers decodes successfully for `n ≤ 999` and fails with `FailCbor`
for `n ≥ 1000`; but Identifier-tag nesting is exempt: `Tag::encode` and
`Tag::decode` restart the counter at 1, so every tag-nesting depth `n`
encodes and decodes successfully. -/
theorem C2_amended :
    (∀ n, n ≤ 999 → Cbor.encode (nestA n) = .ok (arrBytes n, n + 1) ∧
        Cbor.decode (arrBytes n) = .ok (nestA n, n + 1, [])) ∧
    (∀ n, 1000 ≤ n → Cbor.encode (nestA n) = .error .FailCbor ∧
        Cbor.decode (arrBytes n) = .error .FailCbor) ∧
    (∀ n, n ≤ 999 → Cbor.encode (nestM n) = .ok (mapBytes n, 2 * n + 1) ∧
        Cbor.decode (mapBytes n) = .ok (nestM n, 2 * n + 1, [])) ∧
    (∀ n, 1000 ≤ n → Cbor.encode (nestM n) = .error .FailCbor ∧
        Cbor.decode (mapBytes n) = .error .FailCbor) ∧
    (∀ n, 1 ≤ n → n ≤ 999 →
        Cbor.decode (List.replicate n 95 ++ List.replicate n 255) =
          .ok (.Major2 .Indefinite [], n, [])) ∧
    (∀ n, 1000 ≤ n →
        Cbor.decode (List.replicate n 95 ++ List.replicate n 255) =
          .error .FailCbor) ∧
    (∀ n, Cbor.encode (nestT n) = .ok (tagBytes n, 2 * n + 1) ∧
        Cbor.decode (tagBytes n) = .ok (nestT n, 2 * n + 1, [])) := by
  refine ⟨fun n hn => ⟨?_, ?_⟩, fun n hn => ⟨?_, ?_⟩, fun n hn => ⟨?_, ?_⟩,
    fun n hn => ⟨?_, ?_⟩, fun n h1 hn => ?_, fun n hn => ?_,
    fun n => ⟨?_, ?_⟩⟩
  · exact encA n 1 (by norm_num) (by omega)
  · have h := decA n 1 [] (by norm_num) (by omega)
    rw [List.append_nil] at h
    exact h
  · exact encA_fail n 1 (by norm_num) (by omega)
  · have h := decA_fail n 1 [] (by norm_num) (by omega)
    rw [List.append_nil] at h
    exact h
  · exact encM n 1 (by norm_num) (by omega)
  · have h := decM n 1 [] (by norm_num) (by omega)
    rw [List.append_nil] at h
    exact h
  · exact encM_fail n 1 (by norm_num) (by omega)
  · have h := decM_fail n 1 [] (by norm_num) (by omega)
    rw [List.append_nil] at h
    exact h
  · have h := (indefPair n).1 1 [] h1 (by norm_num) (by omega)
    rw [List.append_nil] at h
    exact h
  · exact (indefFailPair n).1 1 (List.replicate n 255) (by omega) (by norm_num)
      (by omega)
  · exact encT n 1 (by norm_num) (by norm_num)
  · have h := decT n 1 [] (by norm_num) (by norm_num)
    rw [List.append_nil] at h
    exact h

/-- C2 (amended, witness): concrete instances — a two-level array nest
round-trips, a 1000-wrapper array nest fails to encode, a two-level
indefinite byte-string nest decodes, and a 1001-level tag nest decodes. -/
theorem C2_amended_witness :
    (Cbor.encode (nestA 2) = .ok (arrBytes 2, 3) ∧
      Cbor.decode (arrBytes 2) = .ok (nestA 2, 3, [])) ∧
    Cbor.encode (nestA 1000) = .error .FailCbor ∧
    Cbor.decode (List.replicate 2 95 ++ List.replicate 2 255) =
      .ok (.Major2 .Indefinite [], 2, []) ∧
    Cbor.decode (mapBytes 1000) = .error .FailCbor ∧
    Cbor.decode (tagBytes 1001) = .ok (nestT 1001, 2003, []) :=
  ⟨C2_amended.1 2 (by norm_num),
   (C2_amended.2.1 1000 (by norm_num)).1,
   C2_amended.2.2.2.2.1 2 (by norm_num) (by norm_num),
   (C2_amended.2.2.2.1 1000 (by norm_num)).2,
   by rw [(C2_amended.2.2.2.2.2.2 1001).2]⟩

theorem cmpNat_lt_iff (a b : Nat) : cmpNat a b = .lt ↔ a < b := by
  unfold cmpNat
  split_ifs <;> simp_all <;> omega

theorem cmpNat_eq_iff (a b : Nat) : cmpNat a b = .eq ↔ a = b := by
  unfold cmpNat
  split_ifs <;> simp_all <;> omega

theorem cmpInt_lt_iff (a b : Int) : cmpInt a b = .lt ↔ a < b := by
  unfold cmpInt
  split_ifs <;> simp_all <;> omega

theorem cmpInt_eq_iff (a b : Int) : cmpInt a b = .eq ↔ a = b := by
  unfold cmpInt
  split_ifs <;> simp_all <;> omega

theorem cmpBool_eq_iff : ∀ a b : Bool, cmpBool a b = .eq ↔ a = b := by decide

theorem cmpNat_refl (a : Nat) : cmpNat a a = .eq := by simp [cmpNat]

theorem cmpInt_refl (a : Int) : cmpInt a a = .eq := by simp [cmpInt]

theorem cmpBool_refl : ∀ b : Bool, cmpBool b b = .eq := by decide

theorem cmpList_refl : ∀ a : List Nat, cmpList a a = .eq := by
  intro a
  induction a with
  | nil => rfl
  | cons x xs ih => simp [cmpList, cmpNat_refl, ih]

theorem cmpNat_swap (a b : Nat) : cmpNat a b = (cmpNat b a).swap := by
  unfold cmpNat
  split_ifs <;> simp [Ordering.swap] <;> omega

theorem cmpInt_swap (a b : Int) : cmpInt a b = (cmpInt b a).swap := by
  unfold cmpInt
  split_ifs <;> simp [Ordering.swap] <;> omega

theorem cmpBool_swap : ∀ a b : Bool, cmpBool a b = (cmpBool b a).swap := by
  decide

theorem cmpList_swap : ∀ a b : List Nat, cmpList a b = (cmpList b a).swap := by
  intro a
  induction a with
  | nil => intro b; cases b <;> simp [cmpList, Ordering.swap]
  | cons x xs ih =>
    intro b
    cases b with
    | nil => simp [cmpList, Ordering.swap]
    | cons y ys =>
      simp only [cmpList]
      rw [cmpNat_swap x y]
      cases cmpNat y x <;> simp [Ordering.swap, ih ys]

theorem cmpNat_trans {a b c : Nat} (h1 : cmpNat a b = .lt)
    (h2 : cmpNat b c = .lt) : cmpNat a c = .lt :=
  (cmpNat_lt_iff a c).mpr
    (lt_trans ((cmpNat_lt_iff a b).mp h1) ((cmpNat_lt_iff b c).mp h2))

theorem cmpInt_trans {a b c : Int} (h1 : cmpInt a b = .lt)
    (h2 : cmpInt b c = .lt) : cmpInt a c = .lt :=
  (cmpInt_lt_iff a c).mpr
    (lt_trans ((cmpInt_lt_iff a b).mp h1) ((cmpInt_lt_iff b c).mp h2))

theorem cmpBool_trans : ∀ a b c : Bool,
    cmpBool a b = .lt → cmpBool b c = .lt → cmpBool a c = .lt := by decide

theorem cmpList_trans : ∀ a b c : List Nat,
    cmpList a b = .lt → cmpList b c = .lt → cmpList a c = .lt := by
  intro a
  induction a with
  | nil =>
    intro b c h1 h2
    cases b with
    | nil => simp [cmpList] at h1
    | cons y ys =>
      cases c with
      | nil => simp [cmpList] at h2
      | cons z zs => simp [cmpList]
  | cons x xs ih =>
    intro b c h1 h2
    cases b with
    | nil => simp [cmpList] at h1
    | cons y ys =>
      cases c with
      | nil => simp [cmpList] at h2
      | cons z zs =>
        simp only [cmpList] at h1 h2 ⊢
        cases hxy : cmpNat x y with
        | lt =>
          cases hyz : cmpNat y z with
          | lt =>
            rw [cmpNat_trans hxy hyz]
          | eq =>
            rw [(cmpNat_eq_iff y z).mp hyz] at hxy
            rw [hxy]
          | gt =>
            rw [hyz] at h2
            simp at h2
        | eq =>
          rw [hxy] at h1
          simp at h1
          rw [(cmpNat_eq_iff x y).mp hxy]
          cases hyz : cmpNat y z with
          | lt => rfl
          | eq =>
            rw [hyz] at h2
            simp at h2
            exact ih ys zs h1 h2
          | gt =>
            rw [hyz] at h2
            simp at h2
        | gt =>
          rw [hxy] at h1
          simp at h1

theorem cmpList_eq_iff : ∀ a b : List Nat, cmpList a b = .eq ↔ a = b := by
  intro a
  induction a with
  | nil => intro b; cases b <;> simp [cmpList]
  | cons x xs ih =>
    intro b
    cases b with
    | nil => simp [cmpList]
    | cons y ys =>
      simp only [cmpList, List.cons.injEq]
      cases hxy : cmpNat x y with
      | lt =>
        constructor
        · intro hc
          exact absurd hc (by simp)
        · rintro ⟨rfl, -⟩
          simp [cmpNat_refl] at hxy
      | eq =>
        have hxe : x = y := (cmpNat_eq_iff x y).mp hxy
        subst hxe
        simp [ih ys]
      | gt =>
        constructor
        · intro hc
          exact absurd hc (by simp)
        · rintro ⟨rfl, -⟩
          simp [cmpNat_refl] at hxy

theorem keyCmp_refl (a : Key) : keyCmp a a = .eq := by
  cases a <;>
    simp +decide [keyCmp, Key.to_type_order, totalCmp32, totalCmp64,
      cmpBool_refl, cmpInt_refl, cmpNat_refl, cmpList_refl]

theorem keyCmp_swap (a b : Key) : keyCmp a b = (keyCmp b a).swap := by
  cases a <;> cases b <;>
    simp +decide [keyCmp, Key.to_type_order, totalCmp32, totalCmp64] <;>
    first
      | exact cmpBool_swap _ _
      | exact cmpInt_swap _ _
      | exact cmpNat_swap _ _
      | exact cmpList_swap _ _

theorem keyCmp_trans {a b c : Key} (hab : keyCmp a b = .lt)
    (hbc : keyCmp b c = .lt) : keyCmp a c = .lt := by
  cases a <;> cases b <;> cases c <;>
    simp +decide [keyCmp, Key.to_type_order, totalCmp32, totalCmp64]
      at hab hbc ⊢ <;>
    first
      | exact cmpBool_trans _ _ _ hab hbc
      | exact cmpInt_trans hab hbc
      | exact cmpNat_trans hab hbc
      | exact cmpList_trans _ _ _ hab hbc

theorem ordBeqEq (o : Ordering) : (o == Ordering.eq) = true ↔ o = Ordering.eq := by
  cases o <;> simp +decide

theorem keyCmp_eq_iff_beq (a b : Key) :
    keyCmp a b = .eq ↔ keyBeq a b = true := by
  cases a <;> cases b <;>
    simp +decide [keyCmp, keyBeq, Key.to_type_order, totalCmp32, totalCmp64,
      ordBeqEq, cmpBool_eq_iff, cmpInt_eq_iff, cmpNat_eq_iff, cmpList_eq_iff]

theorem keyCmp_of_rank_lt {a b : Key}
    (h : a.to_type_order < b.to_type_order) : keyCmp a b = .lt := by
  simp only [keyCmp]
  rw [if_neg (Nat.ne_of_lt h)]
  exact (cmpNat_lt_iff _ _).mpr h

/-- C4: the comparison `impl Ord for Key` is a strict total order. Equality
agrees with `impl PartialEq for Key` (so of `a<b`, `a==b`, `a>b` exactly one
holds, `lt` and the flipped `gt` coinciding), the order is reflexive-equal and
transitive, variant ranks are strictly ordered Bool < numeric < F32 < F64 <
Bytes < Text with signed and unsigned numerics sharing one rank, within the
numeric rank signed values compare numerically, unsigned values compare
numerically, and every negative signed value sorts before every unsigned
value, and floats compare by the `total_cmp` bit-pattern order, so any NaN
pattern is well-ordered and equal to itself. -/
theorem C4_key_total_order :
    (∀ a b : Key, keyCmp a b = .eq ↔ keyBeq a b = true) ∧
    (∀ a b : Key, keyCmp a b = .lt ↔ keyCmp b a = .gt) ∧
    (∀ a : Key, keyCmp a a = .eq) ∧
    (∀ a b c : Key, keyCmp a b = .lt → keyCmp b c = .lt → keyCmp a c = .lt) ∧
    (∀ a b : Key, a.to_type_order < b.to_type_order → keyCmp a b = .lt) ∧
    ((Key.Bool false).to_type_order < (Key.N64 0).to_type_order ∧
      (Key.N64 0).to_type_order = (Key.U64 0).to_type_order ∧
      (Key.U64 0).to_type_order < (Key.F32 0).to_type_order ∧
      (Key.F32 0).to_type_order < (Key.F64 0).to_type_order ∧
      (Key.F64 0).to_type_order < (Key.Bytes []).to_type_order ∧
      (Key.Bytes []).to_type_order < (Key.Text []).to_type_order) ∧
    (∀ i j : Int, keyCmp (.N64 i) (.N64 j) = cmpInt i j) ∧
    (∀ u v : Nat, keyCmp (.U64 u) (.U64 v) = cmpNat u v) ∧
    (∀ (i : Int) (u : Nat), i < 0 → keyCmp (.N64 i) (.U64 u) = .lt) ∧
    (∀ x y : Nat, keyCmp (.F32 x) (.F32 y) = totalCmp32 x y) ∧
    (∀ x y : Nat, keyCmp (.F64 x) (.F64 y) = totalCmp64 x y) := by
  refine ⟨keyCmp_eq_iff_beq, ?_, keyCmp_refl,
    fun a b c hab hbc => keyCmp_trans hab hbc,
    fun a b h => keyCmp_of_rank_lt h, by decide, ?_, ?_, ?_, ?_, ?_⟩
  · intro a b
    rw [keyCmp_swap a b]
    cases keyCmp b a <;> simp [Ordering.swap]
  · intro i j
    simp +decide [keyCmp, Key.to_type_order]
  · intro u v
    simp +decide [keyCmp, Key.to_type_order]
  · intro i u h
    simp +decide [keyCmp, Key.to_type_order]
  · intro x y
    simp +decide [keyCmp, Key.to_type_order]
  · intro x y
    simp +decide [keyCmp, Key.to_type_order]

/-- C4 (witness): concrete instances of the hypothesis-bearing clauses —
transitivity across ranks, the rank rule, and a negative signed key sorting
before an unsigned key. -/
theorem C4_key_total_order_witness :
    keyCmp (.Bool false) (.Text []) = .lt ∧
    keyCmp (.Bool true) (.F32 0) = .lt ∧
    keyCmp (.N64 (-5)) (.U64 3) = .lt :=
  ⟨C4_key_total_order.2.2.2.1 (.Bool false) (.U64 0) (.Text [])
      (by decide) (by decide),
   C4_key_total_order.2.2.2.2.1 (.Bool true) (.F32 0) (by decide),
   C4_key_total_order.2.2.2.2.2.2.2.2.1 (-5) 3 (by norm_num)⟩
